import Mathlib

/-!
# Ring buffer, playback consumer and visualisation sampler of `A9.c`

A shallow embedding of the synchronisation core of the audio visualiser:

* `decoder_body`, `decoder_loop`   : the producer loop of `decoder_thread` (lines 66-87);
* `render_loop`, `render_callback` : the playback consumer (lines 100-132);
* `decimate`, `draw_bars`, `draw_waveform` : the sampling pass (lines 134-203).

Conventions of the embedding.

* C `int` variables are `Int`; no arithmetic of the three functions can leave the
  32-bit range on a well-formed ring, except the conversion of the unsigned
  request `inNumberFrames` to `int frames`, which is modelled by `toInt32`.
* `read_index` and `write_index` start at `0` and are only ever assigned
  `(x + 1) % BUFFER_COUNT`, so they are natural numbers.
* Arrays are total maps from indices to values; the indices that the loops touch
  are recorded in traces so that bounds can be stated about them.
* `float` samples are exact rationals.
* The mutex makes every stretch of code between two `pthread_cond_wait` calls
  atomic.  A `pthread_cond_wait` releases the mutex and the condition is tested
  again at the wake-up: `render_callback`, which has changed nothing when it waits,
  yields `waitNotEmpty`; `decoder_loop` goes on with the ring it finds at the
  wake-up, and yields `waitNotFull` when there is none.
* Loops that the source does not bound take a fuel argument; `outOfFuel` says the
  loop was still running when the fuel was used up.
-/

namespace A9

/-- PCM sample values, `float` in the source, as exact rationals. -/
abbrev Sample := ℚ

/-- Capacity of one slot: `#define BUFFER_SIZE 8192`. -/
def BUFFER_SIZE : Int := 8192

/-- Number of slots: `#define BUFFER_COUNT 8`. -/
def BUFFER_COUNT : Nat := 8

/-- Length of `last_frame`: `#define MAX_SAMPLES 2048`. -/
def MAX_SAMPLES : Int := 2048

/-- Number of bars: `#define NUM_BARS 48`. -/
def NUM_BARS : Nat := 48

/-- The slot type `MyAudioBuffer` (lines 16-22). -/
structure MyAudioBuffer where
  data : Nat → Sample
  size : Int
  read_pos : Int
  full : Bool

/-- The shared ring: `circular_buffer`, `read_index`, `write_index` (lines 24-25). -/
structure Ring where
  circular_buffer : Nat → MyAudioBuffer
  read_index : Nat
  write_index : Nat

/-- The zero-initialised slot of a C global. -/
def emptySlot : MyAudioBuffer :=
  { data := fun _ => 0, size := 0, read_pos := 0, full := false }

/-- The ring at program start: every slot zeroed, both indices `0`. -/
def initRing : Ring :=
  { circular_buffer := fun _ => emptySlot, read_index := 0, write_index := 0 }

/-- What an operation run under the mutex ends with. -/
inductive Outcome (α : Type) where
  | returned (a : α)
  | waitNotEmpty
  | waitNotFull
  | undefinedBehaviour
  | outOfFuel

/-- The samples `a[start], ..., a[start + len - 1]` in order. -/
def run (a : Nat → Sample) (start len : Int) : List Sample :=
  (List.range len.toNat).map (fun (k : Nat) => a (start + (k : Int)).toNat)

/-- `memcpy(dst, &src[off], count * sizeof(float))` on the destination array. -/
def copy_in (dst src : Nat → Sample) (off count : Int) : Nat → Sample :=
  fun (i : Nat) => if (i : Int) < count then src (off + (i : Int)).toNat else dst i

/-- `memcpy(&buffer[copied], &data[read_pos], chunk * sizeof(float))` as the list of
    writes (output position, value) it performs on the output buffer. -/
def copy_out (data : Nat → Sample) (copied read_pos chunk : Int) : List (Int × Sample) :=
  (List.range chunk.toNat).map
    (fun (k : Nat) => (copied + (k : Int), data (read_pos + (k : Int)).toNat))

/-! ## Producer: the inner loop of `decoder_thread` -/

/-- Lines 74-76: `chunk = samples - copied; if (chunk > BUFFER_SIZE) chunk = BUFFER_SIZE`. -/
def chunk_len (samples copied : Int) : Int :=
  if samples - copied > BUFFER_SIZE then BUFFER_SIZE else samples - copied

/-- Lines 74-85: one piece write, run once the wait loop of lines 70-73 is over.
    Returns the new ring and the new value of `copied`. -/
def decoder_body (converted_data : Nat → Sample) (samples : Int) (r : Ring) (copied : Int) :
    Ring × Int :=
  let chunk := chunk_len samples copied
  let old := r.circular_buffer r.write_index
  ({ circular_buffer := Function.update r.circular_buffer r.write_index
        { data := copy_in old.data converted_data copied chunk,
          size := chunk, read_pos := 0, full := true },
     read_index := r.read_index,
     write_index := (r.write_index + 1) % BUFFER_COUNT },
   copied + chunk)

/-- Ghost record of one piece write: the slot written, its `full` flag just before
    the write, and the samples copied. -/
structure PieceWrite where
  slot : Nat
  was_full : Bool
  samples : List Sample

/-- Lines 67-86: `while (copied < samples) { while (full) wait; write piece }`.
    Each `pthread_cond_wait` releases the mutex; `wake` lists the ring states the
    producer finds at its successive wake-ups (whatever the other threads made of
    the ring meanwhile).  With no wake-up left the producer stays suspended. -/
def decoder_loop : Nat → List Ring → (Nat → Sample) → Int → Ring → Int → List PieceWrite →
    Outcome (Ring × List PieceWrite)
  | 0, _, _, _, _, _, _ => Outcome.outOfFuel
  | fuel + 1, wake, converted_data, samples, r, copied, log =>
    if copied < samples then
      if (r.circular_buffer r.write_index).full then
        match wake with
        | [] => Outcome.waitNotFull
        | r1 :: rest => decoder_loop fuel rest converted_data samples r1 copied log
      else
        decoder_loop fuel wake converted_data samples
          (decoder_body converted_data samples r copied).1
          (decoder_body converted_data samples r copied).2
          (log ++ [{ slot := r.write_index,
                     was_full := (r.circular_buffer r.write_index).full,
                     samples := run converted_data copied (chunk_len samples copied) }])
    else Outcome.returned (r, log)

/-! ## Playback consumer: `render_callback` -/

/-- The conversion `int frames = inNumberFrames` of a `UInt32` (two's complement). -/
def toInt32 (n : Nat) : Int :=
  if n % 4294967296 < 2147483648 then ((n % 4294967296 : Nat) : Int)
  else ((n % 4294967296 : Nat) : Int) - 4294967296

/-- Lines 116-127: one iteration of the copy loop.  Returns the new ring, the new
    value of `copied` and the writes made to the output buffer.  On a well-formed ring
    `chunk ≥ 0`; a negative `chunk`, for which the `memcpy` is undefined in C, copies
    nothing here. -/
def render_body (r : Ring) (frames copied : Int) : Ring × Int × List (Int × Sample) :=
  let s := r.circular_buffer r.read_index
  let available := s.size - s.read_pos
  let chunk := if frames - copied < available then frames - copied else available
  (if s.read_pos + chunk ≥ s.size then
      { circular_buffer := Function.update r.circular_buffer r.read_index
          { data := s.data, size := s.size, read_pos := s.read_pos + chunk, full := false },
        read_index := (r.read_index + 1) % BUFFER_COUNT,
        write_index := r.write_index }
    else
      { circular_buffer := Function.update r.circular_buffer r.read_index
          { data := s.data, size := s.size, read_pos := s.read_pos + chunk, full := s.full },
        read_index := r.read_index,
        write_index := r.write_index },
   copied + chunk,
   copy_out s.data copied s.read_pos chunk)

/-- Lines 114-128: `while (copied < frames) { ... }`.  `out` collects the writes to
    the output buffer.  The loop contains no wait: it either returns or goes on. -/
def render_loop : Nat → Ring → Int → Int → List (Int × Sample) →
    Outcome (Ring × List (Int × Sample))
  | 0, _, _, _, _ => Outcome.outOfFuel
  | fuel + 1, r, frames, copied, out =>
    if copied < frames then
      render_loop fuel (render_body r frames copied).1 frames
        (render_body r frames copied).2.1 (out ++ (render_body r frames copied).2.2)
    else Outcome.returned (r, out)

/-- Lines 104-131: wait while the slot at `read_index` is empty, then run the copy
    loop and return the new ring with the writes made to the output buffer. -/
def render_callback (fuel : Nat) (r : Ring) (inNumberFrames : Nat) :
    Outcome (Ring × List (Int × Sample)) :=
  if (r.circular_buffer r.read_index).full then
    render_loop fuel r (toInt32 inNumberFrames) 0 []
  else Outcome.waitNotEmpty

/-! ## Interleavings of piece writes and returning consumer calls -/

/-- One atomic event on the ring: a producer piece write (the loop body at the local
    state `copied` of a chunk `converted_data[0 .. samples)`), or a `render_callback`
    call that returns within `fuel` iterations. -/
inductive Event where
  | piece (converted_data : Nat → Sample) (samples copied : Int)
  | render (fuel : Nat) (inNumberFrames : Nat)

/-- The ring together with the history: all samples handed to piece writes so far
    and all samples written to output buffers so far. -/
structure Trace where
  ring : Ring
  produced : List Sample
  consumed : List Sample

/-- The start of every execution. -/
def initTrace : Trace := { ring := initRing, produced := [], consumed := [] }

/-- One event; `none` when the event cannot happen in this state (the producer is
    not at a piece write, or the call does not return). -/
def step (t : Trace) : Event → Option Trace
  | Event.piece converted_data samples copied =>
    if 0 ≤ copied ∧ copied < samples ∧ (t.ring.circular_buffer t.ring.write_index).full = false then
      some { ring := (decoder_body converted_data samples t.ring copied).1,
             produced := t.produced ++ run converted_data copied (chunk_len samples copied),
             consumed := t.consumed }
    else none
  | Event.render fuel inNumberFrames =>
    match render_callback fuel t.ring inNumberFrames with
    | Outcome.returned res =>
      some { ring := res.1, produced := t.produced,
             consumed := t.consumed ++ res.2.map Prod.snd }
    | _ => none

/-- A finite interleaving, from left to right. -/
def exec : Trace → List Event → Option Trace
  | t, [] => some t
  | t, e :: es =>
    match step t e with
    | some t1 => exec t1 es
    | none => none

/-- The undrained part `data[read_pos .. size)` of a slot. -/
def undrained (s : MyAudioBuffer) : List Sample :=
  run s.data s.read_pos (s.size - s.read_pos)

/-- What the slot `k` places after `read_index` still holds for the consumer: its
    undrained part when it is full, nothing otherwise. -/
def pending_of (r : Ring) (k : Nat) : List Sample :=
  if (r.circular_buffer ((r.read_index + k) % BUFFER_COUNT)).full
  then undrained (r.circular_buffer ((r.read_index + k) % BUFFER_COUNT))
  else []

/-- The undrained parts of the full slots, in ring order from `read_index`. -/
def pending (r : Ring) : List Sample :=
  (List.range BUFFER_COUNT).flatMap (pending_of r)

/-- Number of slots whose `full` flag is set. -/
def fullCount (r : Ring) : Nat :=
  ((List.range BUFFER_COUNT).filter (fun (i : Nat) => (r.circular_buffer i).full)).length

/-- Per-slot well-formedness. -/
def SlotOK (s : MyAudioBuffer) : Prop :=
  0 ≤ s.read_pos ∧ s.read_pos ≤ s.size ∧ s.size ≤ BUFFER_SIZE ∧
    (s.full = true ↔ s.read_pos < s.size)

/-- Ring well-formedness with `cnt` full slots: indices in range, every slot well
    formed, and the full slots are the cyclic run of `cnt` slots that starts at
    `read_index` and ends just before `write_index`. -/
def RingAt (r : Ring) (cnt : Nat) : Prop :=
  r.read_index < BUFFER_COUNT ∧ r.write_index < BUFFER_COUNT ∧
    (∀ i, i < BUFFER_COUNT → SlotOK (r.circular_buffer i)) ∧
    cnt ≤ BUFFER_COUNT ∧ r.write_index = (r.read_index + cnt) % BUFFER_COUNT ∧
    ∀ k, k < BUFFER_COUNT →
      ((r.circular_buffer ((r.read_index + k) % BUFFER_COUNT)).full = true ↔ k < cnt)

/-- Ring well-formedness. -/
def RingOK (r : Ring) : Prop := ∃ cnt, RingAt r cnt

/-! ## Visualisation sampler: `draw_waveform` -/

/-- The globals of the sampler: `last_frame`, `smooth_bars`, `last_frame_len` and
    `visual_mode` (lines 39-43). -/
structure Visual where
  last_frame : Nat → Sample
  smooth_bars : Nat → Sample
  last_frame_len : Int
  visual_mode : Int

/-- The sampler globals at program start. -/
def initVisual : Visual :=
  { last_frame := fun _ => 0, smooth_bars := fun _ => 0, last_frame_len := 0, visual_mode := 2 }

/-- Lines 148-150: `step = n / width; if (step < 1) step = 1` (`width` not zero). -/
def decimation_step (n width : Int) : Int :=
  if Int.tdiv n width < 1 then 1 else Int.tdiv n width

/-- Lines 151-154: `for (i = 0; i < width && i * step < n; i++) last_frame[i] = data[i * step]`,
    from the loop state `i`.  The trace lists the pairs (index written in
    `last_frame`, index read in `data`).  The loop makes at most `width`
    iterations, which is the fuel it is run with. -/
def decimate : Nat → (Nat → Sample) → Int → Int → Int → Int → (Nat → Sample) →
    List (Int × Int) → (Nat → Sample) × List (Int × Int)
  | 0, _, _, _, _, _, last_frame, trace => (last_frame, trace)
  | fuel + 1, data, n, step, width, i, last_frame, trace =>
    if i < width ∧ i * step < n then
      decimate fuel data n step width (i + 1)
        (Function.update last_frame i.toNat (data (i * step).toNat))
        (trace ++ [(i, i * step)])
    else (last_frame, trace)

/-- Lines 172-174: `samples_per_bar = last_frame_len / bars; if (< 1) = 1`. -/
def samples_per_bar (last_frame_len : Int) : Int :=
  if Int.tdiv last_frame_len (NUM_BARS : Int) < 1 then 1
  else Int.tdiv last_frame_len (NUM_BARS : Int)

/-- Lines 178-184: the sum of `fabsf(last_frame[idx])` over the group of bar `i`. -/
def bar_sum (last_frame : Nat → Sample) (last_frame_len : Int) (i : Nat) : Sample :=
  (List.range (samples_per_bar last_frame_len).toNat).foldl
    (fun (sum : Sample) (j : Nat) =>
      if (i : Int) * samples_per_bar last_frame_len + (j : Int) < last_frame_len
      then sum + |last_frame ((i : Int) * samples_per_bar last_frame_len + (j : Int)).toNat|
      else sum)
    0

/-- Line 186: `avg = sum / samples_per_bar`. -/
def bar_avg (last_frame : Nat → Sample) (last_frame_len : Int) (i : Nat) : Sample :=
  bar_sum last_frame last_frame_len i / ((samples_per_bar last_frame_len : Int) : Sample)

/-- Line 189: `0.8 * smooth_bars[i] + 0.2 * avg`. -/
def smooth (s avg : Sample) : Sample := 0.8 * s + 0.2 * avg

/-- Lines 171-198 without the drawing calls: every bar `i < NUM_BARS` is smoothed
    towards the average of its group. -/
def draw_bars (v : Visual) : Visual :=
  { last_frame := v.last_frame,
    smooth_bars := (List.range NUM_BARS).foldl
      (fun (sb : Nat → Sample) (i : Nat) => Function.update sb i (smooth (sb i) (bar_avg v.last_frame v.last_frame_len i)))
      v.smooth_bars,
    last_frame_len := v.last_frame_len,
    visual_mode := v.visual_mode }

/-- Lines 159-202: the mode switch.  Mode 1 only draws; mode 2 updates the bars. -/
def draw_mode (v : Visual) : Visual :=
  if v.visual_mode = 1 then v
  else if v.visual_mode = 2 then draw_bars v
  else v

/-- Lines 144-157: the sampling under the mutex.  Returns the new `last_frame`, the
    new `last_frame_len` and the trace of the decimation loop. -/
def sample_slot (s : MyAudioBuffer) (width : Int) (last_frame : Nat → Sample) :
    (Nat → Sample) × Int × List (Int × Int) :=
  ((decimate width.toNat s.data s.size (decimation_step s.size width) width 0 last_frame []).1,
   width,
   (decimate width.toNat s.data s.size (decimation_step s.size width) width 0 last_frame []).2)

/-- One pass of `draw_waveform` (lines 134-203) on the program state, drawing calls
    left out.  The division `n / width` is undefined for `width = 0`. -/
def draw_waveform (r : Ring) (v : Visual) (width _height : Int) : Outcome (Ring × Visual) :=
  if (r.circular_buffer r.read_index).full then
    if width = 0 then Outcome.undefinedBehaviour
    else
      Outcome.returned
        (r, draw_mode
          { last_frame := (sample_slot (r.circular_buffer r.read_index) width v.last_frame).1,
            smooth_bars := v.smooth_bars,
            last_frame_len := (sample_slot (r.circular_buffer r.read_index) width v.last_frame).2.1,
            visual_mode := v.visual_mode })
  else Outcome.returned (r, draw_mode v)

/-! ## Concrete inputs used below -/

/-- A chunk of samples that are all `1`. -/
def ones : Nat → Sample := fun _ => 1

/-- The ring after the producer has written one piece holding a single sample. -/
def ring_one : Ring := (decoder_body ones 1 initRing 0).1

/-- The history after that one piece write. -/
def trace_one : Trace := { ring := ring_one, produced := [1], consumed := [] }

/-- The history after a piece write of three samples and a call with request 2. -/
def trace_two : Trace :=
  { ring := (render_body (decoder_body ones 3 initRing 0).1 2 0).1,
    produced := [1, 1, 1], consumed := [1, 1] }

/-- The sampler globals after one pass over `ring_one` at width 48. -/
def visual_one : Visual :=
  draw_mode
    { last_frame := (sample_slot (ring_one.circular_buffer ring_one.read_index) 48
        initVisual.last_frame).1,
      smooth_bars := initVisual.smooth_bars,
      last_frame_len := 48,
      visual_mode := initVisual.visual_mode }

/-- The ring after the consumer has drained `ring_one` with a request of one frame. -/
def ring_drained : Ring := (render_body ring_one 1 0).1

/-- The history after that piece write and that call. -/
def trace_drained : Trace := { ring := ring_drained, produced := [1], consumed := [1] }

/-- Sampler globals in bar mode whose frame holds 48 samples, all `1`. -/
def visual_ones : Visual :=
  { last_frame := ones, smooth_bars := fun _ => 0, last_frame_len := 48, visual_mode := 2 }

/-- The sampler globals after `k` passes without data, starting from `visual_ones`. -/
def visual_seq : Nat → Visual
  | 0 => visual_ones
  | k + 1 => draw_mode (visual_seq k)

/-! ## Lemmas on the ring -/

theorem run_length (a : Nat → Sample) (start len : Int) : (run a start len).length = len.toNat := by
  simp [run]

theorem run_split (a : Nat → Sample) (start m n : Int) (hm : 0 ≤ m) (hn : 0 ≤ n) :
    run a start (m + n) = run a start m ++ run a (start + m) n := by
  unfold run
  have h : (m + n).toNat = m.toNat + n.toNat := by omega
  rw [h, List.range_add, List.map_append, List.map_map]
  congr 1
  apply List.map_congr_left
  intro k _
  simp only [Function.comp]
  have : start + ((m.toNat + k : Nat) : Int) = start + m + (k : Int) := by
    push_cast
    omega
  rw [this]

theorem run_nonpos (a : Nat → Sample) (start len : Int) (h : len ≤ 0) : run a start len = [] := by
  unfold run
  have : len.toNat = 0 := by omega
  simp [this]

theorem copy_out_snd (data : Nat → Sample) (copied read_pos chunk : Int) :
    (copy_out data copied read_pos chunk).map Prod.snd = run data read_pos chunk := by
  simp [copy_out, run, Function.comp_def]

theorem copy_out_fst (data : Nat → Sample) (copied read_pos chunk : Int) :
    (copy_out data copied read_pos chunk).map Prod.fst
      = (List.range chunk.toNat).map (fun (k : Nat) => copied + (k : Int)) := by
  simp [copy_out, Function.comp_def]

theorem run_copy_in (dst src : Nat → Sample) (off count : Int) :
    run (copy_in dst src off count) 0 count = run src off count := by
  unfold run copy_in
  apply List.map_congr_left
  intro k hk
  have hk1 : k < count.toNat := List.mem_range.mp hk
  have h1 : ((0 : Int) + (k : Int)).toNat = k := by omega
  have h2 : ((k : Nat) : Int) < count := by omega
  simp [h1, h2]

theorem pending_eq (r : Ring) (cnt : Nat) (h : RingAt r cnt) :
    pending r = (List.range cnt).flatMap (pending_of r) := by
  obtain ⟨_, _, _, hc, _, hfull⟩ := h
  unfold pending
  have hsplit : BUFFER_COUNT = cnt + (BUFFER_COUNT - cnt) := by omega
  rw [hsplit, List.range_add, List.flatMap_append]
  have hnil : (List.map (fun x => cnt + x) (List.range (BUFFER_COUNT - cnt))).flatMap (pending_of r)
      = [] := by
    rw [List.flatMap_eq_nil_iff]
    intro x hx
    rw [List.mem_map] at hx
    obtain ⟨y, hy, rfl⟩ := hx
    have hy1 : y < BUFFER_COUNT - cnt := List.mem_range.mp hy
    have hk : cnt + y < BUFFER_COUNT := by omega
    have hnot : ¬ (r.circular_buffer ((r.read_index + (cnt + y)) % BUFFER_COUNT)).full = true := by
      rw [hfull (cnt + y) hk]
      omega
    simp [pending_of, hnot]
  rw [hnil, List.append_nil]

theorem pending_drain (r r1 : Ring) (cnt : Nat) (s1 : MyAudioBuffer)
    (h : RingAt r cnt) (hpos : 0 < cnt) (h1 : RingAt r1 (cnt - 1))
    (hcb : r1.circular_buffer = Function.update r.circular_buffer r.read_index s1)
    (hri : r1.read_index = (r.read_index + 1) % BUFFER_COUNT) :
    pending r = undrained (r.circular_buffer r.read_index) ++ pending r1 := by
  rw [pending_eq r cnt h, pending_eq r1 (cnt - 1) h1]
  obtain ⟨hr, _, _, hc, _, hfull⟩ := h
  have hsplit : cnt = (cnt - 1) + 1 := by omega
  rw [hsplit, List.range_succ_eq_map, List.flatMap_cons, List.flatMap_map]
  have h0 : pending_of r 0 = undrained (r.circular_buffer r.read_index) := by
    have hf := (hfull 0 (by unfold BUFFER_COUNT; omega)).mpr hpos
    have hidx : (r.read_index + 0) % BUFFER_COUNT = r.read_index := by
      unfold BUFFER_COUNT at *; omega
    unfold pending_of
    rw [hidx]
    rw [hidx] at hf
    simp [hf]
  rw [h0]
  congr 1
  simp only [← hsplit]
  apply List.flatMap_congr
  intro k hk
  have hk1 : k < cnt - 1 := List.mem_range.mp hk
  unfold pending_of
  rw [hri, hcb]
  have hidx : ((r.read_index + 1) % BUFFER_COUNT + k) % BUFFER_COUNT
      = (r.read_index + Nat.succ k) % BUFFER_COUNT := by
    unfold BUFFER_COUNT at *; omega
  have hne : (r.read_index + Nat.succ k) % BUFFER_COUNT ≠ r.read_index := by
    unfold BUFFER_COUNT at *; omega
  rw [hidx, Function.update_noteq hne]

theorem pending_advance (r r1 : Ring) (cnt : Nat) (s1 : MyAudioBuffer) (m : Int)
    (h : RingAt r cnt) (hpos : 0 < cnt) (h1 : RingAt r1 cnt)
    (hcb : r1.circular_buffer = Function.update r.circular_buffer r.read_index s1)
    (hri : r1.read_index = r.read_index)
    (hsplit : undrained (r.circular_buffer r.read_index) = run (r.circular_buffer r.read_index).data (r.circular_buffer r.read_index).read_pos m ++ undrained s1) :
    pending r = run (r.circular_buffer r.read_index).data (r.circular_buffer r.read_index).read_pos m ++ pending r1 := by
  rw [pending_eq r cnt h, pending_eq r1 cnt h1]
  obtain ⟨hr, _, _, hc, _, hfull⟩ := h
  obtain ⟨_, _, _, _, _, hfull1⟩ := h1
  have hs : cnt = (cnt - 1) + 1 := by omega
  rw [hs, List.range_succ_eq_map, List.flatMap_cons, List.flatMap_cons, List.flatMap_map,
    List.flatMap_map]
  have hidx : (r.read_index + 0) % BUFFER_COUNT = r.read_index := by
    unfold BUFFER_COUNT at *; omega
  have h0 : pending_of r 0 = undrained (r.circular_buffer r.read_index) := by
    have hf := (hfull 0 (by unfold BUFFER_COUNT; omega)).mpr hpos
    unfold pending_of
    rw [hidx]
    rw [hidx] at hf
    simp [hf]
  have h0b : pending_of r1 0 = undrained s1 := by
    have hf := (hfull1 0 (by unfold BUFFER_COUNT; omega)).mpr hpos
    unfold pending_of
    rw [hri, hidx]
    rw [hri, hidx] at hf
    rw [hcb] at hf ⊢
    rw [Function.update_same] at hf ⊢
    simp [hf]
  rw [h0, h0b, hsplit, List.append_assoc]
  congr 2
  apply List.flatMap_congr
  intro k hk
  have hk1 : k < cnt - 1 := List.mem_range.mp hk
  unfold pending_of
  rw [hri, hcb]
  have hne : (r.read_index + Nat.succ k) % BUFFER_COUNT ≠ r.read_index := by
    unfold BUFFER_COUNT at *; omega
  rw [Function.update_noteq hne]

theorem pending_write (r r1 : Ring) (cnt : Nat) (s1 : MyAudioBuffer)
    (h : RingAt r cnt) (hlt : cnt < BUFFER_COUNT) (h1 : RingAt r1 (cnt + 1))
    (hcb : r1.circular_buffer = Function.update r.circular_buffer r.write_index s1)
    (hri : r1.read_index = r.read_index) :
    pending r1 = pending r ++ undrained s1 := by
  rw [pending_eq r cnt h, pending_eq r1 (cnt + 1) h1]
  obtain ⟨hr, _, _, hc, hw, hfull⟩ := h
  obtain ⟨_, _, _, _, _, hfull1⟩ := h1
  rw [List.range_succ, List.flatMap_append, List.flatMap_singleton]
  have hlast : pending_of r1 cnt = undrained s1 := by
    have hf := (hfull1 cnt hlt).mpr (by omega)
    unfold pending_of
    rw [hri, ← hw]
    rw [hri, ← hw] at hf
    rw [hcb] at hf ⊢
    rw [Function.update_same] at hf ⊢
    simp [hf]
  rw [hlast]
  congr 1
  apply List.flatMap_congr
  intro k hk
  have hk1 : k < cnt := List.mem_range.mp hk
  unfold pending_of
  rw [hri, hcb]
  have hne : (r.read_index + k) % BUFFER_COUNT ≠ r.write_index := by
    rw [hw]
    unfold BUFFER_COUNT at *; omega
  rw [Function.update_noteq hne]


theorem render_loop_spin : ∀ (fuel : Nat) (r : Ring) (frames copied : Int) (out : List (Int × Sample)),
    copied < frames → r.read_index < BUFFER_COUNT →
    (∀ i, i < BUFFER_COUNT → (r.circular_buffer i).read_pos = (r.circular_buffer i).size) →
    render_loop fuel r frames copied out = Outcome.outOfFuel := by
  intro fuel
  induction fuel with
  | zero => intro r frames copied out _ _ _; rfl
  | succ n ih =>
    intro r frames copied out hlt hri hall
    have hav := hall r.read_index hri
    have hchunk : (if frames - copied < (r.circular_buffer r.read_index).size - (r.circular_buffer r.read_index).read_pos
        then frames - copied
        else (r.circular_buffer r.read_index).size - (r.circular_buffer r.read_index).read_pos) = 0 := by
      rw [hav]
      split_ifs with hh
      · omega
      · omega
    unfold render_loop
    rw [if_pos hlt]
    apply ih
    · simp only [render_body, hchunk]
      omega
    · simp only [render_body, hchunk]
      rw [if_pos (by omega)]
      exact Nat.mod_lt _ (by unfold BUFFER_COUNT; omega)
    · intro i hi
      simp only [render_body, hchunk]
      rw [if_pos (by omega)]
      simp only [Function.update_apply]
      split_ifs with hh
      · simp only [add_zero]; exact hav
      · exact hall i hi

theorem ringAt_zero_drained (r : Ring) (h : RingAt r 0) :
    ∀ i, i < BUFFER_COUNT → (r.circular_buffer i).read_pos = (r.circular_buffer i).size := by
  obtain ⟨hr, _, hslots, _, _, hfull⟩ := h
  intro i hi
  have hk : (i + BUFFER_COUNT - r.read_index) % BUFFER_COUNT < BUFFER_COUNT :=
    Nat.mod_lt _ (by unfold BUFFER_COUNT; omega)
  have hidx : (r.read_index + (i + BUFFER_COUNT - r.read_index) % BUFFER_COUNT) % BUFFER_COUNT = i := by
    unfold BUFFER_COUNT at *; omega
  have hf := hfull _ hk
  rw [hidx] at hf
  obtain ⟨h0, h1, _, h3⟩ := hslots i hi
  have : ¬ (r.circular_buffer i).read_pos < (r.circular_buffer i).size := by
    intro hlt
    have := (hf.mp (h3.mpr hlt))
    omega
  omega

theorem render_body_spec (r : Ring) (frames copied : Int) (cnt : Nat)
    (h : RingAt r cnt) (hlt : copied < frames) (hpos : 0 < cnt) :
    (∃ cnt1, RingAt (render_body r frames copied).1 cnt1 ∧
      (cnt1 + 1 = cnt ∨ (cnt1 = cnt ∧ (render_body r frames copied).2.1 = frames))) ∧
    (render_body r frames copied).1.write_index = r.write_index ∧
    copied < (render_body r frames copied).2.1 ∧
    (render_body r frames copied).2.1 ≤ frames ∧
    pending r = (render_body r frames copied).2.2.map Prod.snd
        ++ pending (render_body r frames copied).1 ∧
    (render_body r frames copied).2.2.map Prod.fst
      = (List.range ((render_body r frames copied).2.1 - copied).toNat).map
          (fun (k : Nat) => copied + (k : Int)) := by
  have h' := h
  obtain ⟨hr, hw, hslots, hc, hwi, hfull⟩ := h
  have hidx0 : (r.read_index + 0) % BUFFER_COUNT = r.read_index := by
    unfold BUFFER_COUNT at *; omega
  have hf0 : (r.circular_buffer r.read_index).full = true := by
    have := (hfull 0 (by unfold BUFFER_COUNT; omega)).mpr hpos
    rwa [hidx0] at this
  obtain ⟨hs0, hs1, hs2, hs3⟩ := hslots r.read_index hr
  have hav : (r.circular_buffer r.read_index).read_pos < (r.circular_buffer r.read_index).size :=
    hs3.mp hf0
  by_cases hcase : frames - copied < (r.circular_buffer r.read_index).size - (r.circular_buffer r.read_index).read_pos
  · -- the request ends inside the slot
    have hb : render_body r frames copied =
        ({ circular_buffer := Function.update r.circular_buffer r.read_index
            { data := (r.circular_buffer r.read_index).data,
              size := (r.circular_buffer r.read_index).size,
              read_pos := (r.circular_buffer r.read_index).read_pos + (frames - copied),
              full := (r.circular_buffer r.read_index).full },
           read_index := r.read_index, write_index := r.write_index },
         copied + (frames - copied),
         copy_out (r.circular_buffer r.read_index).data copied
           (r.circular_buffer r.read_index).read_pos (frames - copied)) := by
      simp only [render_body, if_pos hcase]
      rw [if_neg (by omega)]
    rw [hb]
    have hR1 : RingAt
        ({ circular_buffer := Function.update r.circular_buffer r.read_index
            { data := (r.circular_buffer r.read_index).data,
              size := (r.circular_buffer r.read_index).size,
              read_pos := (r.circular_buffer r.read_index).read_pos + (frames - copied),
              full := (r.circular_buffer r.read_index).full },
           read_index := r.read_index, write_index := r.write_index } : Ring) cnt := by
      refine ⟨hr, hw, ?_, hc, hwi, ?_⟩
      · intro i hi
        simp only [Function.update_apply]
        split_ifs with hh
        · refine ⟨by simp only; omega, by simp only; omega, hs2, ?_⟩
          simp only [hf0, true_iff]
          omega
        · exact hslots i hi
      · intro k hk
        simp only [Function.update_apply]
        split_ifs with hh
        · simp only
          rw [← hh]
          exact hfull k hk
        · exact hfull k hk
    refine ⟨⟨cnt, hR1, Or.inr ⟨rfl, by simp only; omega⟩⟩, rfl, by simp only; omega,
      by simp only; omega, ?_, ?_⟩
    · simp only [copy_out_snd]
      apply pending_advance r _ cnt _ (frames - copied) h' hpos hR1 rfl rfl
      unfold undrained
      simp only
      have : (r.circular_buffer r.read_index).size - (r.circular_buffer r.read_index).read_pos
          = (frames - copied) + ((r.circular_buffer r.read_index).size
              - ((r.circular_buffer r.read_index).read_pos + (frames - copied))) := by omega
      rw [this]
      rw [run_split _ _ _ _ (by omega) (by omega)]
    · simp only [copy_out_fst]
      congr 2
      omega
  · -- the slot is drained
    have hb : render_body r frames copied =
        ({ circular_buffer := Function.update r.circular_buffer r.read_index
            { data := (r.circular_buffer r.read_index).data,
              size := (r.circular_buffer r.read_index).size,
              read_pos := (r.circular_buffer r.read_index).read_pos
                + ((r.circular_buffer r.read_index).size - (r.circular_buffer r.read_index).read_pos),
              full := false },
           read_index := (r.read_index + 1) % BUFFER_COUNT, write_index := r.write_index },
         copied + ((r.circular_buffer r.read_index).size - (r.circular_buffer r.read_index).read_pos),
         copy_out (r.circular_buffer r.read_index).data copied
           (r.circular_buffer r.read_index).read_pos
           ((r.circular_buffer r.read_index).size - (r.circular_buffer r.read_index).read_pos)) := by
      simp only [render_body, if_neg hcase]
      rw [if_pos (by omega)]
    rw [hb]
    have hR1 : RingAt
        ({ circular_buffer := Function.update r.circular_buffer r.read_index
            { data := (r.circular_buffer r.read_index).data,
              size := (r.circular_buffer r.read_index).size,
              read_pos := (r.circular_buffer r.read_index).read_pos
                + ((r.circular_buffer r.read_index).size - (r.circular_buffer r.read_index).read_pos),
              full := false },
           read_index := (r.read_index + 1) % BUFFER_COUNT, write_index := r.write_index } : Ring)
           (cnt - 1) := by
      refine ⟨Nat.mod_lt _ (by unfold BUFFER_COUNT; omega), hw, ?_, by omega, ?_, ?_⟩
      · intro i hi
        simp only [Function.update_apply]
        split_ifs with hh
        · refine ⟨by simp only; omega, by simp only; omega, hs2, ?_⟩
          simp only [Bool.false_eq_true, false_iff]
          omega
        · exact hslots i hi
      · simp only
        rw [hwi]
        unfold BUFFER_COUNT at *
        omega
      · intro k hk
        simp only [Function.update_apply]
        have hidx : ((r.read_index + 1) % BUFFER_COUNT + k) % BUFFER_COUNT
            = (r.read_index + (k + 1)) % BUFFER_COUNT := by
          unfold BUFFER_COUNT at *; omega
        rw [hidx]
        split_ifs with hh
        · simp only [Bool.false_eq_true, false_iff]
          unfold BUFFER_COUNT at *
          omega
        · by_cases hk7 : k + 1 < BUFFER_COUNT
          · rw [hfull (k + 1) hk7]
            omega
          · exfalso
            apply hh
            unfold BUFFER_COUNT at *
            omega
    refine ⟨⟨cnt - 1, hR1, Or.inl (by omega)⟩, rfl, by simp only; omega,
      by simp only; omega, ?_, ?_⟩
    · simp only [copy_out_snd]
      exact pending_drain r _ cnt _ h' hpos hR1 rfl rfl
    · simp only [copy_out_fst]
      congr 2
      omega

theorem render_loop_spec : ∀ (fuel : Nat) (r : Ring) (frames copied : Int)
    (out : List (Int × Sample)) (res : Ring × List (Int × Sample)) (cnt : Nat),
    RingAt r cnt → render_loop fuel r frames copied out = Outcome.returned res →
    RingOK res.1 ∧ res.1.write_index = r.write_index ∧
    ∃ taken : List Sample, pending r = taken ++ pending res.1 ∧
      res.2.map Prod.snd = out.map Prod.snd ++ taken ∧
      res.2.map Prod.fst
        = out.map Prod.fst ++ (List.range taken.length).map (fun (k : Nat) => copied + (k : Int)) ∧
      taken.length = (frames - copied).toNat := by
  intro fuel
  induction fuel with
  | zero =>
    intro r frames copied out res cnt _ h
    simp [render_loop] at h
  | succ n ih =>
    intro r frames copied out res cnt hR h
    by_cases hlt : copied < frames
    · by_cases hcnt : cnt = 0
      · subst hcnt
        rw [render_loop_spin (n + 1) r frames copied out hlt hR.1 (ringAt_zero_drained r hR)] at h
        cases h
      · obtain ⟨⟨cnt1, hR1, _⟩, hw, hlt1, hle, hpend, hfst⟩ :=
          render_body_spec r frames copied cnt hR hlt (by omega)
        unfold render_loop at h
        rw [if_pos hlt] at h
        obtain ⟨hOK, hw1, taken, hp, hsnd, hfst1, hlen⟩ := ih _ _ _ _ _ cnt1 hR1 h
        have hblen : ((render_body r frames copied).2.2.map Prod.snd).length
            = ((render_body r frames copied).2.1 - copied).toNat := by
          rw [List.length_map, ← List.length_map (render_body r frames copied).2.2 Prod.fst, hfst]
          simp
        refine ⟨hOK, hw1.trans hw, (render_body r frames copied).2.2.map Prod.snd ++ taken,
          ?_, ?_, ?_, ?_⟩
        · rw [hpend, hp, List.append_assoc]
        · rw [hsnd, List.map_append, List.append_assoc]
        · rw [hfst1, List.map_append, List.append_assoc, hfst, List.length_append, hblen,
            List.range_add, List.map_append, List.map_map]
          congr 2
          apply List.map_congr_left
          intro k _
          simp only [Function.comp]
          push_cast
          omega
        · rw [List.length_append, hblen, hlen]
          omega
    · unfold render_loop at h
      rw [if_neg hlt] at h
      cases h
      refine ⟨⟨cnt, hR⟩, rfl, [], ?_, ?_, ?_, ?_⟩
      · simp
      · simp
      · simp
      · simp only [List.length_nil]
        omega

theorem chunk_len_bounds (samples copied : Int) (hlt : copied < samples) :
    1 ≤ chunk_len samples copied ∧ chunk_len samples copied ≤ BUFFER_SIZE ∧
      chunk_len samples copied ≤ samples - copied := by
  unfold chunk_len BUFFER_SIZE
  split_ifs with h
  · omega
  · omega

theorem ringAt_not_full (r : Ring) (cnt : Nat) (h : RingAt r cnt)
    (hnf : (r.circular_buffer r.write_index).full = false) : cnt < BUFFER_COUNT := by
  obtain ⟨hr, _, _, hc, hwi, hfull⟩ := h
  by_contra hge
  have hc8 : cnt = BUFFER_COUNT := by omega
  have h0 := (hfull 0 (by unfold BUFFER_COUNT; omega)).mpr (by omega)
  have hidx : (r.read_index + 0) % BUFFER_COUNT = r.write_index := by
    rw [hwi, hc8]
    unfold BUFFER_COUNT at *
    omega
  rw [hidx, hnf] at h0
  cases h0

theorem decoder_body_spec (converted_data : Nat → Sample) (samples : Int) (r : Ring)
    (copied : Int) (cnt : Nat) (h : RingAt r cnt) (hlt : copied < samples)
    (hnf : (r.circular_buffer r.write_index).full = false) :
    RingAt (decoder_body converted_data samples r copied).1 (cnt + 1) ∧
    pending (decoder_body converted_data samples r copied).1
      = pending r ++ run converted_data copied (chunk_len samples copied) := by
  have hcnt := ringAt_not_full r cnt h hnf
  have h' := h
  obtain ⟨hr, hw, hslots, hc, hwi, hfull⟩ := h
  obtain ⟨hc1, hc2, _⟩ := chunk_len_bounds samples copied hlt
  have hR1 : RingAt (decoder_body converted_data samples r copied).1 (cnt + 1) := by
    refine ⟨hr, Nat.mod_lt _ (by unfold BUFFER_COUNT; omega), ?_, by omega, ?_, ?_⟩
    · intro i hi
      simp only [decoder_body, Function.update_apply]
      split_ifs with hh
      · refine ⟨le_refl _, by simp only; omega, hc2, ?_⟩
        simp only [true_iff]
        omega
      · exact hslots i hi
    · simp only [decoder_body]
      rw [hwi]
      unfold BUFFER_COUNT at *
      omega
    · intro k hk
      simp only [decoder_body, Function.update_apply]
      split_ifs with hh
      · simp only [true_iff]
        rw [hwi] at hh
        unfold BUFFER_COUNT at *
        omega
      · rw [hfull k hk]
        have : k ≠ cnt := by
          intro hk2
          apply hh
          rw [hwi, hk2]
        omega
  refine ⟨hR1, ?_⟩
  rw [pending_write r _ cnt _ h' hcnt hR1 rfl rfl]
  congr 1
  unfold undrained
  simp only [sub_zero]
  exact run_copy_in _ _ _ _

theorem initRing_ok : RingAt initRing 0 := by
  refine ⟨by decide, by decide, ?_, by decide, by decide, ?_⟩
  · intro i _
    simp [initRing, emptySlot, SlotOK, BUFFER_SIZE]
  · intro k _
    simp [initRing, emptySlot]

theorem pending_initRing : pending initRing = [] := by
  rw [pending_eq initRing 0 initRing_ok]
  rfl

/-- The invariant carried along every interleaving. -/
theorem step_good (t t1 : Trace) (e : Event) (hR : RingOK t.ring)
    (hP : t.produced = t.consumed ++ pending t.ring) (h : step t e = some t1) :
    RingOK t1.ring ∧ t1.produced = t1.consumed ++ pending t1.ring := by
  obtain ⟨cnt, hR⟩ := hR
  cases e with
  | piece converted_data samples copied =>
    simp only [step] at h
    split_ifs at h with hg
    obtain ⟨_, hlt, hnf⟩ := hg
    cases h
    obtain ⟨hR1, hp⟩ := decoder_body_spec converted_data samples t.ring copied cnt hR hlt hnf
    refine ⟨⟨cnt + 1, hR1⟩, ?_⟩
    simp only
    rw [hp, hP, List.append_assoc]
  | render fuel inNumberFrames =>
    simp only [step] at h
    split at h
    · rename_i res hres
      cases h
      unfold render_callback at hres
      split_ifs at hres with hf
      obtain ⟨hOK, _, taken, hp, hsnd, _, _⟩ := render_loop_spec _ _ _ _ _ _ cnt hR hres
      refine ⟨hOK, ?_⟩
      simp only
      rw [hsnd, hP, hp]
      simp
    · cases h

theorem exec_good : ∀ (evs : List Event) (t t1 : Trace), RingOK t.ring →
    t.produced = t.consumed ++ pending t.ring → exec t evs = some t1 →
    RingOK t1.ring ∧ t1.produced = t1.consumed ++ pending t1.ring := by
  intro evs
  induction evs with
  | nil =>
    intro t t1 hR hP h
    simp only [exec] at h
    cases h
    exact ⟨hR, hP⟩
  | cons e es ih =>
    intro t t1 hR hP h
    simp only [exec] at h
    split at h
    · rename_i t2 ht2
      obtain ⟨hR2, hP2⟩ := step_good t t2 e hR hP ht2
      exact ih t2 t1 hR2 hP2 h
    · cases h

theorem exec_init_good (evs : List Event) (t : Trace) (h : exec initTrace evs = some t) :
    RingOK t.ring ∧ t.produced = t.consumed ++ pending t.ring := by
  apply exec_good evs initTrace t ⟨0, initRing_ok⟩ _ h
  simp [initTrace, pending_initRing]


theorem fullCount_eq (r : Ring) (cnt : Nat) (h : RingAt r cnt) : fullCount r = cnt := by
  obtain ⟨hr, _, _, hc, _, hfull⟩ := h
  have hpt : ∀ i, i < BUFFER_COUNT →
      (r.circular_buffer i).full = decide ((i + BUFFER_COUNT - r.read_index) % BUFFER_COUNT < cnt) := by
    intro i hi
    have hk : (i + BUFFER_COUNT - r.read_index) % BUFFER_COUNT < BUFFER_COUNT :=
      Nat.mod_lt _ (by unfold BUFFER_COUNT; omega)
    have hidx : (r.read_index + (i + BUFFER_COUNT - r.read_index) % BUFFER_COUNT) % BUFFER_COUNT = i := by
      unfold BUFFER_COUNT at *; omega
    have hf := hfull _ hk
    rw [hidx] at hf
    by_cases hb : (r.circular_buffer i).full = true
    · rw [hb]; exact (decide_eq_true (hf.mp hb)).symm
    · have hb2 : (r.circular_buffer i).full = false := by simpa using hb
      rw [hb2]
      exact (decide_eq_false (fun hh => hb (hf.mpr hh))).symm
  have hfilter : (List.range BUFFER_COUNT).filter (fun (i : Nat) => (r.circular_buffer i).full)
      = (List.range BUFFER_COUNT).filter
          (fun (i : Nat) => decide ((i + BUFFER_COUNT - r.read_index) % BUFFER_COUNT < cnt)) := by
    apply List.filter_congr
    intro i hi
    exact hpt i (List.mem_range.mp hi)
  unfold fullCount
  rw [hfilter]
  have key : ∀ ri, ri < 8 → ∀ c, c < 9 →
      ((List.range 8).filter (fun (i : Nat) => decide ((i + 8 - ri) % 8 < c))).length = c := by
    decide
  exact key r.read_index hr cnt (by unfold BUFFER_COUNT at hc; omega)

theorem toInt32_small (n : Nat) (h : n < 2147483648) : toInt32 n = (n : Int) := by
  unfold toInt32
  have h1 : n % 4294967296 = n := Nat.mod_eq_of_lt (by omega)
  rw [h1, if_pos h]

theorem pending_nil_of_drained (r : Ring)
    (h : ∀ i, i < BUFFER_COUNT → (r.circular_buffer i).full = false) : pending r = [] := by
  unfold pending
  rw [List.flatMap_eq_nil_iff]
  intro k _
  unfold pending_of
  rw [h _ (Nat.mod_lt _ (by unfold BUFFER_COUNT; omega))]
  simp

theorem render_callback_spec (fuel : Nat) (r : Ring) (N : Nat) (res : Ring × List (Int × Sample))
    (hR : RingOK r) (h : render_callback fuel r N = Outcome.returned res) :
    RingOK res.1 ∧ res.1.write_index = r.write_index ∧
      pending r = res.2.map Prod.snd ++ pending res.1 ∧
      res.2.map Prod.fst = (List.range (toInt32 N).toNat).map (fun (k : Nat) => (k : Int)) := by
  obtain ⟨cnt, hR⟩ := hR
  unfold render_callback at h
  split_ifs at h with hf
  obtain ⟨hOK, hw, taken, hp, hsnd, hfst, hlen⟩ := render_loop_spec _ _ _ _ _ _ cnt hR h
  refine ⟨hOK, hw, ?_, ?_⟩
  · rw [hsnd, hp]; simp
  · rw [hfst, hlen]
    simp

theorem render_loop_outcome : ∀ (fuel : Nat) (r : Ring) (frames copied : Int)
    (out : List (Int × Sample)),
    (∃ res, render_loop fuel r frames copied out = Outcome.returned res) ∨
    render_loop fuel r frames copied out = Outcome.outOfFuel := by
  intro fuel
  induction fuel with
  | zero => intro r frames copied out; right; rfl
  | succ n ih =>
    intro r frames copied out
    unfold render_loop
    by_cases hlt : copied < frames
    · rw [if_pos hlt]
      exact ih _ _ _ _
    · rw [if_neg hlt]
      exact Or.inl ⟨_, rfl⟩

theorem pending_zero (r : Ring) (h : RingAt r 0) : pending r = [] := by
  rw [pending_eq r 0 h]
  rfl

theorem render_loop_returns : ∀ (fuel : Nat) (r : Ring) (frames copied : Int)
    (out : List (Int × Sample)) (cnt : Nat),
    RingAt r cnt → frames - copied ≤ ((pending r).length : Int) →
    (copied < frames → cnt + 1 ≤ fuel) → 1 ≤ fuel →
    ∃ res, render_loop fuel r frames copied out = Outcome.returned res := by
  intro fuel
  induction fuel with
  | zero => intro r frames copied out cnt _ _ _ h1; omega
  | succ n ih =>
    intro r frames copied out cnt hR hlen hfuel _
    unfold render_loop
    by_cases hlt : copied < frames
    · rw [if_pos hlt]
      have hpos : 0 < cnt := by
        by_contra h0
        have hz : cnt = 0 := by omega
        subst hz
        rw [pending_zero r hR] at hlen
        simp at hlen
        omega
      obtain ⟨⟨cnt1, hR1, hrel⟩, _, hlt1, hle, hpend, hfst⟩ :=
        render_body_spec r frames copied cnt hR hlt hpos
      have hblen : ((render_body r frames copied).2.2.map Prod.snd).length
          = ((render_body r frames copied).2.1 - copied).toNat := by
        rw [List.length_map, ← List.length_map (render_body r frames copied).2.2 Prod.fst, hfst]
        simp
      have hplen : ((pending r).length : Int)
          = ((render_body r frames copied).2.1 - copied)
            + ((pending (render_body r frames copied).1).length : Int) := by
        rw [hpend, List.length_append, hblen]
        push_cast
        omega
      have hf := hfuel hlt
      apply ih _ _ _ _ cnt1 hR1
      · omega
      · intro hmore
        rcases hrel with h1 | ⟨_, h2⟩
        · omega
        · omega
      · omega
    · rw [if_neg hlt]
      exact ⟨_, rfl⟩

/-! ## Lemmas on the producer loop -/

theorem decoder_loop_log (converted_data : Nat → Sample) (samples : Int) :
    ∀ (fuel : Nat) (wake : List Ring) (r : Ring) (copied : Int) (log : List PieceWrite)
      (res : Ring × List PieceWrite),
    decoder_loop fuel wake converted_data samples r copied log = Outcome.returned res →
    ∃ added : List PieceWrite, res.2 = log ++ added ∧
      (samples ≤ copied → added = []) ∧
      (copied < samples →
        ((added.length : Int) - 1) * BUFFER_SIZE < samples - copied ∧
        samples - copied ≤ (added.length : Int) * BUFFER_SIZE) ∧
      (added.map PieceWrite.samples).flatten = run converted_data copied (samples - copied) ∧
      added.map (fun e => (e.samples.length : Int))
        = (List.range added.length).map
            (fun (j : Nat) => min (samples - copied - (j : Int) * BUFFER_SIZE) BUFFER_SIZE) ∧
      ∀ e, e ∈ added → e.was_full = false ∧ 1 ≤ (e.samples.length : Int) ∧
        (e.samples.length : Int) ≤ BUFFER_SIZE := by
  intro fuel
  induction fuel with
  | zero =>
    intro wake r copied log res h
    simp [decoder_loop] at h
  | succ n ih =>
    intro wake r copied log res h
    unfold decoder_loop at h
    by_cases hlt : copied < samples
    · rw [if_pos hlt] at h
      by_cases hf : (r.circular_buffer r.write_index).full = true
      · rw [if_pos hf] at h
        cases wake with
        | nil => simp at h
        | cons r1 rest =>
          simp only at h
          exact ih rest r1 copied log res h
      · rw [if_neg hf] at h
        obtain ⟨added, hres, hdone, hcount, hflat, hlens, hwf⟩ := ih _ _ _ _ _ h
        obtain ⟨hc1, hc2, hc3⟩ := chunk_len_bounds samples copied hlt
        have hcop : (decoder_body converted_data samples r copied).2
            = copied + chunk_len samples copied := rfl
        rw [hcop] at hdone hcount hflat hlens
        have hchunk : chunk_len samples copied = BUFFER_SIZE ∨
            chunk_len samples copied = samples - copied := by
          unfold chunk_len; split_ifs <;> simp
        refine ⟨{ slot := r.write_index, was_full := (r.circular_buffer r.write_index).full,
                  samples := run converted_data copied (chunk_len samples copied) } :: added,
          ?_, ?_, ?_, ?_, ?_, ?_⟩
        · rw [hres]; simp
        · intro hge; omega
        · intro _
          simp only [List.length_cons]
          push_cast
          by_cases hmore : copied + chunk_len samples copied < samples
          · have := hcount hmore
            unfold BUFFER_SIZE at *
            rcases hchunk with hB | hB
            · omega
            · omega
          · have hnil := hdone (by omega)
            rw [hnil]
            simp only [List.length_nil]
            unfold BUFFER_SIZE at *
            omega
        · simp only [List.map_cons, List.flatten_cons]
          rw [hflat]
          have hsplit : samples - copied = chunk_len samples copied
              + (samples - (copied + chunk_len samples copied)) := by omega
          conv_rhs => rw [hsplit]
          rw [run_split _ _ _ _ (by omega) (by omega)]
        · simp only [List.map_cons, List.length_cons, List.range_succ_eq_map, List.map_map]
          congr 1
          · rw [run_length]
            simp only [Nat.cast_zero, zero_mul, sub_zero]
            have : ((chunk_len samples copied).toNat : Int) = chunk_len samples copied := by omega
            rw [this]
            unfold chunk_len BUFFER_SIZE
            split_ifs with hh
            · rw [min_eq_right (by omega)]
            · rw [min_eq_left (by omega)]
          · rw [hlens]
            apply List.map_congr_left
            intro j hj
            have hj1 : j < added.length := List.mem_range.mp hj
            simp only [Function.comp, Nat.succ_eq_add_one]
            have hne : ¬ (samples ≤ copied + chunk_len samples copied) := by
              intro hge
              have := hdone hge
              rw [this] at hj1
              simp at hj1
            have hB : chunk_len samples copied = BUFFER_SIZE := by
              rcases hchunk with hB | hB
              · exact hB
              · omega
            rw [hB]
            push_cast
            congr 1
            ring
        · intro e he
          rcases List.mem_cons.mp he with rfl | he1
          · refine ⟨by simpa using hf, ?_, ?_⟩
            · simp only [run_length]; omega
            · simp only [run_length]; omega
          · exact hwf e he1
    · rw [if_neg hlt] at h
      cases h
      refine ⟨[], by simp, ?_, ?_, ?_, ?_, ?_⟩
      · intro _; trivial
      · intro hh; omega
      · simp only [List.map_nil, List.flatten_nil]
        exact (run_nonpos _ _ _ (by omega)).symm
      · simp
      · intro e he; cases he

theorem decoder_loop_returns (converted_data : Nat → Sample) (samples : Int) :
    ∀ (fuel m : Nat) (wake : List Ring) (r : Ring) (copied : Int) (log : List PieceWrite),
    (∀ w, w ∈ wake → (w.circular_buffer w.write_index).full = false) →
    samples - copied ≤ (m : Int) * BUFFER_SIZE →
    ((r.circular_buffer r.write_index).full = true → 2 * m + 1 ≤ fuel ∧ m ≤ wake.length) →
    ((r.circular_buffer r.write_index).full = false →
      2 * m ≤ fuel ∧ 1 ≤ fuel ∧ m ≤ wake.length + 1) →
    ∃ res, decoder_loop fuel wake converted_data samples r copied log = Outcome.returned res := by
  intro fuel
  induction fuel with
  | zero =>
    intro m wake r copied log _ _ h1 h2
    cases hf : (r.circular_buffer r.write_index).full
    · have := h2 hf; omega
    · have := h1 hf; omega
  | succ n ih =>
    intro m wake r copied log hw hm h1 h2
    unfold decoder_loop
    by_cases hlt : copied < samples
    · rw [if_pos hlt]
      have hm1 : 1 ≤ m := by
        by_contra hh
        have : m = 0 := by omega
        rw [this] at hm
        simp at hm
        omega
      by_cases hf : (r.circular_buffer r.write_index).full = true
      · rw [if_pos hf]
        obtain ⟨hfu, hwl⟩ := h1 hf
        cases wake with
        | nil => simp at hwl; omega
        | cons r1 rest =>
          simp only
          have hr1 : (r1.circular_buffer r1.write_index).full = false :=
            hw r1 (List.mem_cons_self _ _)
          apply ih m rest r1 copied log (fun w hw1 => hw w (List.mem_cons_of_mem _ hw1)) hm
          · intro hh; rw [hr1] at hh; cases hh
          · intro _
            simp only [List.length_cons] at hwl
            omega
      · rw [if_neg hf]
        have hf2 : (r.circular_buffer r.write_index).full = false := by simpa using hf
        obtain ⟨hfu, _, hwl⟩ := h2 hf2
        obtain ⟨hc1, hc2, hc3⟩ := chunk_len_bounds samples copied hlt
        have hchunk : chunk_len samples copied = BUFFER_SIZE ∨
            chunk_len samples copied = samples - copied := by
          unfold chunk_len; split_ifs <;> simp
        apply ih (m - 1) wake _ _ _ hw
        · have hcop : (decoder_body converted_data samples r copied).2
              = copied + chunk_len samples copied := rfl
          rw [hcop]
          have hcast : ((m - 1 : Nat) : Int) = (m : Int) - 1 := by omega
          rw [hcast]
          unfold BUFFER_SIZE at *
          rcases hchunk with hB | hB
          · omega
          · omega
        · intro _; omega
        · intro _; omega
    · rw [if_neg hlt]
      exact ⟨_, rfl⟩

theorem decoder_body_effect (converted_data : Nat → Sample) (samples : Int) (r : Ring)
    (copied : Int) :
    (decoder_body converted_data samples r copied).2 = copied + chunk_len samples copied ∧
    ((decoder_body converted_data samples r copied).1.circular_buffer r.write_index).size
      = chunk_len samples copied ∧
    ((decoder_body converted_data samples r copied).1.circular_buffer r.write_index).read_pos = 0 ∧
    ((decoder_body converted_data samples r copied).1.circular_buffer r.write_index).full = true ∧
    run ((decoder_body converted_data samples r copied).1.circular_buffer r.write_index).data 0
        (chunk_len samples copied)
      = run converted_data copied (chunk_len samples copied) ∧
    (decoder_body converted_data samples r copied).1.write_index
      = (r.write_index + 1) % BUFFER_COUNT ∧
    (decoder_body converted_data samples r copied).1.read_index = r.read_index ∧
    ∀ j, j ≠ r.write_index →
      (decoder_body converted_data samples r copied).1.circular_buffer j = r.circular_buffer j := by
  refine ⟨rfl, ?_, ?_, ?_, ?_, rfl, rfl, ?_⟩
  · simp [decoder_body]
  · simp [decoder_body]
  · simp [decoder_body]
  · simp only [decoder_body, Function.update_same]
    exact run_copy_in _ _ _ _
  · intro j hj
    simp only [decoder_body]
    exact Function.update_noteq hj _ _

theorem ceil_of_bounds (samples : Int) (n : Nat) (h0 : 0 ≤ samples)
    (hzero : samples ≤ 0 → n = 0)
    (hpos : 0 < samples →
      ((n : Int) - 1) * BUFFER_SIZE < samples ∧ samples ≤ (n : Int) * BUFFER_SIZE) :
    (n : Int) = ⌈(samples : ℚ) / ((BUFFER_SIZE : Int) : ℚ)⌉ := by
  symm
  rw [Int.ceil_eq_iff]
  have hB : ((BUFFER_SIZE : Int) : ℚ) = 8192 := by unfold BUFFER_SIZE; norm_num
  rw [hB]
  rcases lt_or_eq_of_le h0 with hp | hz
  · obtain ⟨ha, hb⟩ := hpos hp
    unfold BUFFER_SIZE at ha hb
    have ha1 : (((n : Int) - 1) * 8192 : ℚ) < (samples : ℚ) := by exact_mod_cast ha
    have hb1 : (samples : ℚ) ≤ ((n : Int) : ℚ) * 8192 := by exact_mod_cast hb
    constructor
    · rw [lt_div_iff₀ (by norm_num)]
      push_cast at ha1 ⊢
      linarith
    · rw [div_le_iff₀ (by norm_num)]
      linarith
  · have hn := hzero (by omega)
    subst hn
    rw [← hz]
    norm_num

/-! ## Lemmas on the sampling pass -/

theorem decimate_spec (data : Nat → Sample) (n step width m : Int) :
    ∀ (fuel : Nat) (i : Int) (last_frame : Nat → Sample) (trace : List (Int × Int)),
    0 ≤ i → i ≤ m → m - i ≤ (fuel : Int) →
    (∀ j, i ≤ j → j < m → j < width ∧ j * step < n) →
    ¬ (m < width ∧ m * step < n) →
    (decimate fuel data n step width i last_frame trace).2
      = trace ++ (List.range (m - i).toNat).map
          (fun (k : Nat) => (i + (k : Int), (i + (k : Int)) * step)) ∧
    (decimate fuel data n step width i last_frame trace).1
      = fun (x : Nat) => if i ≤ (x : Int) ∧ (x : Int) < m then data ((x : Int) * step).toNat
          else last_frame x := by
  intro fuel
  induction fuel with
  | zero =>
    intro i last_frame trace h0 him hf _ _
    have : m - i = 0 := by omega
    simp only [decimate, this, Int.toNat_zero, List.range_zero, List.map_nil, List.append_nil,
      true_and]
    funext x
    rw [if_neg (by omega)]
  | succ f ih =>
    intro i last_frame trace h0 him hf hin hout
    unfold decimate
    by_cases hg : i < width ∧ i * step < n
    · rw [if_pos hg]
      have hlt : i < m := by
        rcases lt_or_eq_of_le him with h | h
        · exact h
        · exfalso; apply hout; rw [← h]; exact hg
      obtain ⟨h2, h1⟩ := ih (i + 1)
        (Function.update last_frame i.toNat (data (i * step).toNat)) (trace ++ [(i, i * step)])
        (by omega) (by omega) (by push_cast at hf; omega)
        (fun j hj1 hj2 => hin j (by omega) hj2) hout
      constructor
      · rw [h2]
        have hs : (m - i).toNat = (m - (i + 1)).toNat + 1 := by omega
        rw [hs, List.range_succ_eq_map, List.map_cons, List.map_map, List.append_assoc]
        simp only [List.singleton_append, Nat.cast_zero, add_zero]
        congr 2
        apply List.map_congr_left
        intro k _
        simp only [Function.comp, Nat.succ_eq_add_one]
        push_cast
        have : i + 1 + (k : Int) = i + ((k : Int) + 1) := by ring
        rw [this]
      · rw [h1]
        funext x
        by_cases hx : (x : Int) = i
        · have hxn : x = i.toNat := by omega
          rw [if_neg (by omega), if_pos (by omega), hxn, Function.update_same]
          have : ((i.toNat : Nat) : Int) = i := by omega
          rw [this]
        · have hxn : x ≠ i.toNat := by omega
          rw [Function.update_noteq hxn]
          by_cases hc : i + 1 ≤ (x : Int) ∧ (x : Int) < m
          · rw [if_pos hc, if_pos (by omega)]
          · rw [if_neg hc, if_neg (by omega)]
    · rw [if_neg hg]
      have hmi : m = i := by
        by_contra hne
        have hlt : i < m := by omega
        exact hg (hin i (le_refl _) hlt)
      have : m - i = 0 := by omega
      simp only [this, Int.toNat_zero, List.range_zero, List.map_nil, List.append_nil, true_and]
      funext x
      rw [if_neg (by omega)]

theorem decimation_step_pos (n width : Int) : 1 ≤ decimation_step n width := by
  unfold decimation_step
  split_ifs with h
  · exact le_refl _
  · omega

theorem decimation_facts (n width : Int) (hn : 0 ≤ n) (hw : 1 ≤ width) :
    (∀ j, 0 ≤ j → j < min width n → j < width ∧ j * decimation_step n width < n) ∧
    ¬ (min width n < width ∧ min width n * decimation_step n width < n) := by
  have hdiv : Int.tdiv n width = n / width := Int.tdiv_eq_ediv hn (by omega)
  by_cases hcase : n < width
  · have hq : n / width = 0 := Int.ediv_eq_zero_of_lt hn hcase
    have hstep : decimation_step n width = 1 := by
      unfold decimation_step
      rw [hdiv, hq]
      simp
    rw [hstep, min_eq_right (by omega)]
    constructor
    · intro j _ hj
      constructor
      · omega
      · rw [mul_one]; exact hj
    · intro hh
      rw [mul_one] at hh
      omega
  · have hge : width ≤ n := by omega
    have hq1 : 1 ≤ n / width := by
      apply Int.le_ediv_of_mul_le (by omega)
      rw [one_mul]; exact hge
    have hstep : decimation_step n width = n / width := by
      unfold decimation_step
      rw [hdiv, if_neg (by omega)]
    have hmul : width * (n / width) ≤ n := Int.mul_ediv_self_le (by omega)
    rw [hstep, min_eq_left hge]
    constructor
    · intro j _ hj
      refine ⟨hj, ?_⟩
      have h1 : j * (n / width) ≤ (width - 1) * (n / width) :=
        Int.mul_le_mul_of_nonneg_right (by omega) (by omega)
      have h2 : (width - 1) * (n / width) = width * (n / width) - n / width := by ring
      omega
    · intro hh
      omega

theorem sample_slot_spec (s : MyAudioBuffer) (width : Int) (last_frame : Nat → Sample)
    (hn : 0 ≤ s.size) (hw : 1 ≤ width) :
    (sample_slot s width last_frame).2.2
      = (List.range (min width s.size).toNat).map
          (fun (k : Nat) => ((k : Int), (k : Int) * decimation_step s.size width)) ∧
    (sample_slot s width last_frame).1
      = (fun (x : Nat) => if (x : Int) < min width s.size
          then s.data ((x : Int) * decimation_step s.size width).toNat else last_frame x) ∧
    (sample_slot s width last_frame).2.1 = width := by
  obtain ⟨hin, hout⟩ := decimation_facts s.size width hn hw
  obtain ⟨h2, h1⟩ := decimate_spec s.data s.size (decimation_step s.size width) width
    (min width s.size) width.toNat 0 last_frame [] (le_refl _) (by
      rcases le_total width s.size with h | h
      · rw [min_eq_left h]; omega
      · rw [min_eq_right h]; omega) (by
      have : min width s.size ≤ width := min_le_left _ _
      omega) (fun j hj1 hj2 => hin j hj1 hj2) hout
  refine ⟨?_, ?_, rfl⟩
  · unfold sample_slot
    simp only
    rw [h2]
    simp
  · unfold sample_slot
    simp only
    rw [h1]
    funext x
    simp


theorem foldl_update_range (f : Nat → Sample) (sb : Nat → Sample) :
    ∀ (n x : Nat),
    ((List.range n).foldl
      (fun (sb : Nat → Sample) (i : Nat) => Function.update sb i (smooth (sb i) (f i))) sb) x
      = if x < n then smooth (sb x) (f x) else sb x := by
  intro n
  induction n with
  | zero => intro x; simp
  | succ k ih =>
    intro x
    rw [List.range_succ, List.foldl_append]
    simp only [List.foldl_cons, List.foldl_nil, Function.update_apply]
    by_cases hx : x = k
    · subst hx
      rw [if_pos rfl, ih x, if_neg (by omega), if_pos (by omega)]
    · rw [if_neg hx, ih x]
      by_cases hlt : x < k
      · rw [if_pos hlt, if_pos (by omega)]
      · rw [if_neg hlt, if_neg (by omega)]

theorem draw_bars_apply (v : Visual) (i : Nat) :
    (draw_bars v).smooth_bars i
      = if i < NUM_BARS then smooth (v.smooth_bars i) (bar_avg v.last_frame v.last_frame_len i)
        else v.smooth_bars i := by
  unfold draw_bars
  simp only
  exact foldl_update_range (bar_avg v.last_frame v.last_frame_len) v.smooth_bars NUM_BARS i

theorem draw_mode_frame (v : Visual) :
    (draw_mode v).last_frame = v.last_frame ∧ (draw_mode v).last_frame_len = v.last_frame_len ∧
      (draw_mode v).visual_mode = v.visual_mode := by
  unfold draw_mode
  split_ifs <;> simp [draw_bars]

theorem samples_per_bar_48 : samples_per_bar 48 = 1 := by
  unfold samples_per_bar NUM_BARS
  decide

theorem bar_avg_ones_zero : bar_avg ones 48 0 = 1 := by
  unfold bar_avg bar_sum
  rw [samples_per_bar_48]
  simp [ones, List.range_succ]

theorem ring_one_slot :
    (ring_one.circular_buffer ring_one.read_index).size = 1 ∧
    (ring_one.circular_buffer ring_one.read_index).full = true ∧
    (ring_one.circular_buffer ring_one.read_index).data 0 = 1 := by
  refine ⟨rfl, rfl, ?_⟩
  simp [ring_one, decoder_body, initRing, copy_in, chunk_len, BUFFER_SIZE, ones]

theorem visual_one_frame : visual_one.last_frame 0 = 1 ∧ visual_one.last_frame_len = 48 ∧
    visual_one.visual_mode = 2 ∧ visual_one.smooth_bars 0 = 1 / 5 := by
  obtain ⟨hsz, _, hd⟩ := ring_one_slot
  have hspec := (sample_slot_spec (ring_one.circular_buffer ring_one.read_index) 48
    initVisual.last_frame (by rw [hsz]; decide) (by decide)).2.1
  have hlf : (sample_slot (ring_one.circular_buffer ring_one.read_index) 48
      initVisual.last_frame).1 0 = 1 := by
    rw [hspec, hsz]
    simp [hd]
  have hframe : visual_one.last_frame = (sample_slot (ring_one.circular_buffer ring_one.read_index) 48
      initVisual.last_frame).1 := rfl
  have hbars : visual_one.smooth_bars 0
      = smooth 0 (bar_avg visual_one.last_frame 48 0) := by
    have : visual_one = draw_bars
      { last_frame := (sample_slot (ring_one.circular_buffer ring_one.read_index) 48
          initVisual.last_frame).1,
        smooth_bars := initVisual.smooth_bars,
        last_frame_len := 48,
        visual_mode := initVisual.visual_mode } := rfl
    rw [this, draw_bars_apply, if_pos (by decide)]
    rfl
  refine ⟨by rw [hframe]; exact hlf, rfl, rfl, ?_⟩
  rw [hbars]
  have havg : bar_avg visual_one.last_frame 48 0 = 1 := by
    unfold bar_avg bar_sum
    rw [samples_per_bar_48]
    simp [List.range_succ, hframe, hlf]
  rw [havg]
  unfold smooth
  norm_num

theorem draw_waveform_bars (r r1 : Ring) (v v1 : Visual) (width height : Int) (i : Nat)
    (h : draw_waveform r v width height = Outcome.returned (r1, v1))
    (hmode : v.visual_mode = 2) (hi : i < NUM_BARS) :
    v1.smooth_bars i = smooth (v.smooth_bars i) (bar_avg v1.last_frame v1.last_frame_len i) := by
  have key : ∀ v0 : Visual, v0.visual_mode = 2 →
      (draw_mode v0).smooth_bars i
        = smooth (v0.smooth_bars i)
            (bar_avg (draw_mode v0).last_frame (draw_mode v0).last_frame_len i) := by
    intro v0 h0
    rw [(draw_mode_frame v0).1, (draw_mode_frame v0).2.1]
    unfold draw_mode
    rw [if_neg (by omega), if_pos h0, draw_bars_apply, if_pos hi]
  unfold draw_waveform at h
  by_cases hf : (r.circular_buffer r.read_index).full = true
  · rw [if_pos hf] at h
    by_cases hw : width = 0
    · rw [if_pos hw] at h
      cases h
    · rw [if_neg hw] at h
      cases h
      exact key _ hmode
  · rw [if_neg hf] at h
    cases h
    exact key _ hmode

theorem smooth_closed_form (v : Sample) (n : Nat) (s : Sample)
    (hs : s = v * (1 - 0.8 ^ n)) : smooth s v = v * (1 - 0.8 ^ (n + 1)) := by
  unfold smooth
  rw [hs, pow_succ]
  ring

/-! ## The claims -/

/-- C1 (amended): along every finite interleaving, from the initial ring, of producer
    piece writes and `render_callback` calls that return, the samples produced so far
    are the samples returned so far followed by the undrained parts `data[read_pos .. size)`
    of the full slots in ring order from `read_index`; so the returned samples are a
    prefix of the produced ones, in order, none lost and none repeated.  A further
    returning call with request `N` writes the output positions `0 .. frames - 1` for
    `frames = (int) N`, which are `0 .. N - 1` when `N < 2^31`, and it writes there the
    next pending samples in order.  Such a call does return, within `BUFFER_COUNT + 1`
    iterations, when the slot at `read_index` is full and at least `frames` samples are
    pending.  Once no slot is full, the samples returned equal the samples produced in
    count and in value. -/
theorem fifo_conservation (evs : List Event) (t : Trace) (h : exec initTrace evs = some t) :
    t.produced = t.consumed ++ pending t.ring ∧
    t.consumed <+: t.produced ∧
    (∀ (fuel N : Nat) (res : Ring × List (Int × Sample)),
      render_callback fuel t.ring N = Outcome.returned res →
      res.2.map Prod.fst = (List.range (toInt32 N).toNat).map (fun (k : Nat) => (k : Int)) ∧
      (N < 2147483648 →
        res.2.map Prod.fst = (List.range N).map (fun (k : Nat) => (k : Int)) ∧
        res.2.length = N) ∧
      pending t.ring = res.2.map Prod.snd ++ pending res.1 ∧
      t.produced = (t.consumed ++ res.2.map Prod.snd) ++ pending res.1) ∧
    (∀ (N : Nat), (t.ring.circular_buffer t.ring.read_index).full = true →
      toInt32 N ≤ ((pending t.ring).length : Int) →
      ∃ res, render_callback (BUFFER_COUNT + 1) t.ring N = Outcome.returned res) ∧
    ((∀ i, i < BUFFER_COUNT → (t.ring.circular_buffer i).full = false) →
      t.consumed = t.produced ∧ t.consumed.length = t.produced.length) := by
  obtain ⟨hR, hP⟩ := exec_init_good evs t h
  refine ⟨hP, ⟨pending t.ring, hP.symm⟩, ?_, ?_, ?_⟩
  · intro fuel N res hres
    obtain ⟨_, _, hp, hfst⟩ := render_callback_spec fuel t.ring N res hR hres
    refine ⟨hfst, ?_, hp, ?_⟩
    · intro hN
      have hfst1 : res.2.map Prod.fst = (List.range N).map (fun (k : Nat) => (k : Int)) := by
        rw [hfst, toInt32_small N hN]
        simp
      refine ⟨hfst1, ?_⟩
      have := congrArg List.length hfst1
      simpa using this
    · rw [hP, hp, List.append_assoc]
  · intro N hfull hN
    obtain ⟨cnt, hRc⟩ := hR
    unfold render_callback
    rw [if_pos hfull]
    apply render_loop_returns (BUFFER_COUNT + 1) t.ring (toInt32 N) 0 [] cnt hRc
    · simpa using hN
    · intro _
      have := hRc.2.2.2.1
      omega
    · omega
  · intro hd
    have : t.consumed = t.produced := by
      rw [hP, pending_nil_of_drained t.ring hd, List.append_nil]
    exact ⟨this, by rw [this]⟩

/-- The statement of C1 at the interleaving of one piece write of three samples
    followed by a call with request 2. -/
theorem fifo_conservation_witness :
    exec initTrace [Event.piece ones 3 0, Event.render 2 2] = some trace_two ∧
    (trace_two.produced = trace_two.consumed ++ pending trace_two.ring ∧
    trace_two.consumed <+: trace_two.produced ∧
    (∀ (fuel N : Nat) (res : Ring × List (Int × Sample)),
      render_callback fuel trace_two.ring N = Outcome.returned res →
      res.2.map Prod.fst = (List.range (toInt32 N).toNat).map (fun (k : Nat) => (k : Int)) ∧
      (N < 2147483648 →
        res.2.map Prod.fst = (List.range N).map (fun (k : Nat) => (k : Int)) ∧
        res.2.length = N) ∧
      pending trace_two.ring = res.2.map Prod.snd ++ pending res.1 ∧
      trace_two.produced = (trace_two.consumed ++ res.2.map Prod.snd) ++ pending res.1) ∧
    (∀ (N : Nat), (trace_two.ring.circular_buffer trace_two.ring.read_index).full = true →
      toInt32 N ≤ ((pending trace_two.ring).length : Int) →
      ∃ res, render_callback (BUFFER_COUNT + 1) trace_two.ring N = Outcome.returned res) ∧
    ((∀ i, i < BUFFER_COUNT → (trace_two.ring.circular_buffer i).full = false) →
      trace_two.consumed = trace_two.produced ∧ trace_two.consumed.length = trace_two.produced.length)) :=
  ⟨rfl, fifo_conservation [Event.piece ones 3 0, Event.render 2 2] trace_two rfl⟩

/-- C1 as first stated fails for requests of `2^31` frames and more: after one piece
    write, a call with request `2147483648` finds `frames = INT_MIN`, skips the copy
    loop and returns having written no sample at all. -/
theorem large_request_writes_nothing :
    ∃ (t : Trace) (res : Ring × List (Int × Sample)),
      exec initTrace [Event.piece ones 1 0] = some t ∧
      render_callback 1 t.ring 2147483648 = Outcome.returned res ∧
      res.2.length = 0 ∧ res.2.length ≠ 2147483648 := by
  refine ⟨_, _, rfl, rfl, rfl, by decide⟩

/-- C2: the ring `ring_one` is reached by one piece write and holds one sample.  A
    `render_callback` call with request 2 copies that sample, crosses the slot
    boundary with `copied = 1 < 2` and finds no full slot; whatever the number of
    iterations allowed, the call is then still inside its copy loop: it has neither
    returned nor suspended on the condition variable, and it holds the mutex. -/
theorem render_callback_spins :
    exec initTrace [Event.piece ones 1 0]
      = some trace_one ∧
    ∀ fuel, render_callback fuel ring_one 2 = Outcome.outOfFuel := by
  refine ⟨rfl, ?_⟩
  intro fuel
  have hfull : (ring_one.circular_buffer ring_one.read_index).full = true := rfl
  unfold render_callback
  rw [if_pos hfull]
  cases fuel with
  | zero => rfl
  | succ n =>
    unfold render_loop
    have h2 : toInt32 2 = 2 := by decide
    rw [h2, if_pos (by decide)]
    apply render_loop_spin
    · simp [render_body, ring_one, decoder_body, chunk_len, initRing, emptySlot, BUFFER_SIZE]
    · simp [render_body, ring_one, decoder_body, chunk_len, initRing, emptySlot, BUFFER_SIZE,
        BUFFER_COUNT]
    · intro i _
      simp [render_body, ring_one, decoder_body, chunk_len, initRing, emptySlot, BUFFER_SIZE,
        BUFFER_COUNT, Function.update_apply]
      split_ifs <;> simp

/-- Starvation: in every state reached from the initial ring, a `render_callback` call
    that finds the slot at `read_index` full but asks for more frames than there are
    samples pending never returns and never suspends: whatever the number of
    iterations allowed, it is still inside its copy loop. -/
theorem render_callback_starves (evs : List Event) (t : Trace)
    (h : exec initTrace evs = some t) (N : Nat)
    (hfull : (t.ring.circular_buffer t.ring.read_index).full = true)
    (hN : ((pending t.ring).length : Int) < toInt32 N) :
    ∀ fuel, render_callback fuel t.ring N = Outcome.outOfFuel := by
  intro fuel
  obtain ⟨⟨cnt, hR⟩, _⟩ := exec_init_good evs t h
  unfold render_callback
  rw [if_pos hfull]
  rcases render_loop_outcome fuel t.ring (toInt32 N) 0 [] with ⟨res, hres⟩ | hout
  · exfalso
    obtain ⟨_, _, taken, hp, _, _, hlen⟩ := render_loop_spec _ _ _ _ _ _ cnt hR hres
    have hl := congrArg List.length hp
    rw [List.length_append] at hl
    omega
  · exact hout

/-- The starvation statement at the state reached by one piece write of one sample,
    for a request of 2 frames. -/
theorem render_callback_starves_witness :
    exec initTrace [Event.piece ones 1 0] = some trace_one ∧
    (trace_one.ring.circular_buffer trace_one.ring.read_index).full = true ∧
    ((pending trace_one.ring).length : Int) < toInt32 2 ∧
    ∀ fuel, render_callback fuel trace_one.ring 2 = Outcome.outOfFuel :=
  ⟨rfl, rfl, by decide,
    render_callback_starves [Event.piece ones 1 0] trace_one rfl 2 rfl (by decide)⟩

/-- C3: for a chunk `converted_data[0 .. samples)`.
    (1) A piece write at the loop state `copied < samples` copies
    `chunk = min (samples - copied) BUFFER_SIZE` samples, `1 ≤ chunk ≤ BUFFER_SIZE`, into
    the slot at `write_index`, sets its `size` to `chunk`, its `read_pos` to 0 and its
    `full` flag, advances `write_index` to `(write_index + 1) % BUFFER_COUNT` and leaves
    `read_index` and every other slot alone.
    (2) Whenever the loop returns, whatever the ring states met at the wake-ups, it has
    written `⌈samples / BUFFER_SIZE⌉` pieces, piece `j` of length
    `min (samples - j * BUFFER_SIZE) BUFFER_SIZE`, whose concatenation is the chunk, and
    every piece went into a slot whose `full` flag was false.
    (3) For `samples ≤ 0` the loop returns at once with the ring unchanged.
    (4) In front of a full slot, with no wake-up, the loop is suspended on `non-full`.
    (5) The loop does return when every wake-up finds the slot at `write_index` free and
    there are enough wake-ups. -/
theorem produce_contract (converted_data : Nat → Sample) (samples : Int) :
    (∀ (r : Ring) (copied : Int), copied < samples →
      1 ≤ chunk_len samples copied ∧ chunk_len samples copied ≤ BUFFER_SIZE ∧
      chunk_len samples copied = min (samples - copied) BUFFER_SIZE ∧
      (decoder_body converted_data samples r copied).2 = copied + chunk_len samples copied ∧
      ((decoder_body converted_data samples r copied).1.circular_buffer r.write_index).size
        = chunk_len samples copied ∧
      ((decoder_body converted_data samples r copied).1.circular_buffer r.write_index).read_pos
        = 0 ∧
      ((decoder_body converted_data samples r copied).1.circular_buffer r.write_index).full
        = true ∧
      run ((decoder_body converted_data samples r copied).1.circular_buffer r.write_index).data 0
          (chunk_len samples copied)
        = run converted_data copied (chunk_len samples copied) ∧
      (decoder_body converted_data samples r copied).1.write_index
        = (r.write_index + 1) % BUFFER_COUNT ∧
      (decoder_body converted_data samples r copied).1.read_index = r.read_index ∧
      ∀ j, j ≠ r.write_index →
        (decoder_body converted_data samples r copied).1.circular_buffer j
          = r.circular_buffer j) ∧
    (∀ (fuel : Nat) (wake : List Ring) (r : Ring) (res : Ring × List PieceWrite),
      decoder_loop fuel wake converted_data samples r 0 [] = Outcome.returned res →
      (0 ≤ samples → (res.2.length : Int) = ⌈(samples : ℚ) / ((BUFFER_SIZE : Int) : ℚ)⌉) ∧
      (res.2.map PieceWrite.samples).flatten = run converted_data 0 samples ∧
      res.2.map (fun e => (e.samples.length : Int))
        = (List.range res.2.length).map
            (fun (j : Nat) => min (samples - (j : Int) * BUFFER_SIZE) BUFFER_SIZE) ∧
      ∀ e, e ∈ res.2 → e.was_full = false ∧ 1 ≤ (e.samples.length : Int) ∧
        (e.samples.length : Int) ≤ BUFFER_SIZE) ∧
    (samples ≤ 0 → ∀ (fuel : Nat) (wake : List Ring) (r : Ring),
      decoder_loop (fuel + 1) wake converted_data samples r 0 [] = Outcome.returned (r, [])) ∧
    (∀ (fuel : Nat) (r : Ring), 0 < samples → (r.circular_buffer r.write_index).full = true →
      decoder_loop (fuel + 1) [] converted_data samples r 0 [] = Outcome.waitNotFull) ∧
    (∀ (m : Nat) (wake : List Ring) (r : Ring),
      (∀ w, w ∈ wake → (w.circular_buffer w.write_index).full = false) →
      samples ≤ (m : Int) * BUFFER_SIZE → m ≤ wake.length →
      ∃ res, decoder_loop (2 * m + 1) wake converted_data samples r 0 [] = Outcome.returned res) := by
  refine ⟨?_, ?_, ?_, ?_, ?_⟩
  · intro r copied hlt
    obtain ⟨h1, h2, _⟩ := chunk_len_bounds samples copied hlt
    refine ⟨h1, h2, ?_, decoder_body_effect converted_data samples r copied⟩
    unfold chunk_len
    split_ifs with hh
    · rw [min_eq_right (by omega)]
    · rw [min_eq_left (by omega)]
  · intro fuel wake r res h
    obtain ⟨added, hres, hdone, hcount, hflat, hlens, hall⟩ :=
      decoder_loop_log converted_data samples fuel wake r 0 [] res h
    simp only [List.nil_append] at hres
    subst hres
    simp only [sub_zero] at hcount hflat hlens hdone
    refine ⟨?_, hflat, hlens, hall⟩
    intro h0
    apply ceil_of_bounds samples _ h0
    · intro hle
      rw [hdone hle]
      rfl
    · exact hcount
  · intro hle fuel wake r
    unfold decoder_loop
    rw [if_neg (by omega)]
  · intro fuel r hpos hf
    unfold decoder_loop
    rw [if_pos hpos, if_pos hf]
  · intro m wake r hw hm hlen
    apply decoder_loop_returns converted_data samples (2 * m + 1) m wake r 0 [] hw
    · simpa using hm
    · intro _; omega
    · intro _; omega


/-- The statement of C3 (2) at a chunk of three samples written into the initial ring. -/
theorem produce_contract_witness :
    decoder_loop 2 [] ones 3 initRing 0 []
      = Outcome.returned ((decoder_body ones 3 initRing 0).1,
          [{ slot := 0, was_full := false, samples := [1, 1, 1] }]) ∧
    (((0 : Int) ≤ 3 →
        (([{ slot := 0, was_full := false, samples := [1, 1, 1] }] : List PieceWrite).length : Int)
          = ⌈((3 : Int) : ℚ) / ((BUFFER_SIZE : Int) : ℚ)⌉) ∧
      (([{ slot := 0, was_full := false, samples := [1, 1, 1] }] : List PieceWrite).map
          PieceWrite.samples).flatten = run ones 0 3 ∧
      ([{ slot := 0, was_full := false, samples := [1, 1, 1] }] : List PieceWrite).map
          (fun e => (e.samples.length : Int))
        = (List.range
            ([{ slot := 0, was_full := false, samples := [1, 1, 1] }] : List PieceWrite).length).map
            (fun (j : Nat) => min (3 - (j : Int) * BUFFER_SIZE) BUFFER_SIZE) ∧
      ∀ e, e ∈ ([{ slot := 0, was_full := false, samples := [1, 1, 1] }] : List PieceWrite) →
        e.was_full = false ∧ 1 ≤ (e.samples.length : Int) ∧
          (e.samples.length : Int) ≤ BUFFER_SIZE) :=
  ⟨rfl, (produce_contract ones 3).2.1 2 [] initRing
    ((decoder_body ones 3 initRing 0).1,
      [{ slot := 0, was_full := false, samples := [1, 1, 1] }]) rfl⟩

/-- C4: in every state reached from the initial ring by producer piece writes and
    returning `render_callback` calls, both indices lie in `[0, BUFFER_COUNT)`; every
    slot has `0 ≤ read_pos ≤ size ≤ BUFFER_SIZE` and is full exactly when
    `read_pos < size`; the full slots are exactly the `cnt` slots of the cyclic run from
    `read_index` up to but not including `write_index`, `cnt` being the number of full
    slots; so when the indices are equal all slots are empty or all are full, every
    slot having the flag of the slot at that index; and the number of full slots is at
    most `BUFFER_COUNT`. -/
theorem ring_well_formed (evs : List Event) (t : Trace) (h : exec initTrace evs = some t) :
    t.ring.read_index < BUFFER_COUNT ∧ t.ring.write_index < BUFFER_COUNT ∧
    (∀ i, i < BUFFER_COUNT →
      0 ≤ (t.ring.circular_buffer i).read_pos ∧
      (t.ring.circular_buffer i).read_pos ≤ (t.ring.circular_buffer i).size ∧
      (t.ring.circular_buffer i).size ≤ BUFFER_SIZE ∧
      ((t.ring.circular_buffer i).full = true ↔
        (t.ring.circular_buffer i).read_pos < (t.ring.circular_buffer i).size)) ∧
    (∃ cnt, cnt ≤ BUFFER_COUNT ∧ fullCount t.ring = cnt ∧
      t.ring.write_index = (t.ring.read_index + cnt) % BUFFER_COUNT ∧
      ∀ k, k < BUFFER_COUNT →
        ((t.ring.circular_buffer ((t.ring.read_index + k) % BUFFER_COUNT)).full = true
          ↔ k < cnt)) ∧
    (t.ring.read_index = t.ring.write_index →
      (∀ i, i < BUFFER_COUNT → (t.ring.circular_buffer i).full = false) ∨
      (∀ i, i < BUFFER_COUNT → (t.ring.circular_buffer i).full = true)) ∧
    (t.ring.read_index = t.ring.write_index →
      ∀ i, i < BUFFER_COUNT →
        (t.ring.circular_buffer i).full
          = (t.ring.circular_buffer t.ring.read_index).full) ∧
    fullCount t.ring ≤ BUFFER_COUNT := by
  obtain ⟨⟨cnt, hR⟩, _⟩ := exec_init_good evs t h
  have hcount := fullCount_eq t.ring cnt hR
  obtain ⟨hr, hw, hslots, hc, hwi, hfull⟩ := hR
  have hpt : ∀ i, i < BUFFER_COUNT →
      ((t.ring.circular_buffer i).full = true ↔
        (i + BUFFER_COUNT - t.ring.read_index) % BUFFER_COUNT < cnt) := by
    intro i hi
    have hk : (i + BUFFER_COUNT - t.ring.read_index) % BUFFER_COUNT < BUFFER_COUNT :=
      Nat.mod_lt _ (by unfold BUFFER_COUNT; omega)
    have hidx : (t.ring.read_index + (i + BUFFER_COUNT - t.ring.read_index) % BUFFER_COUNT)
        % BUFFER_COUNT = i := by
      unfold BUFFER_COUNT at *; omega
    have hf := hfull _ hk
    rwa [hidx] at hf
  have hsame : t.ring.read_index = t.ring.write_index → cnt = 0 ∨ cnt = BUFFER_COUNT := by
    intro he
    rw [hwi] at he
    unfold BUFFER_COUNT at *
    omega
  refine ⟨hr, hw, hslots, ⟨cnt, hc, hcount, hwi, hfull⟩, ?_, ?_, by omega⟩
  · intro he
    rcases hsame he with h0 | h8
    · left
      intro i hi
      have := hpt i hi
      rw [h0] at this
      simpa using this
    · right
      intro i hi
      apply (hpt i hi).mpr
      rw [h8]
      exact Nat.mod_lt _ (by unfold BUFFER_COUNT; omega)
  · intro he i hi
    have h1 := hpt i hi
    have h2 := hpt t.ring.read_index hr
    rcases hsame he with h0 | h8
    · rw [h0] at h1 h2
      have a1 : (t.ring.circular_buffer i).full = false := by simpa using h1
      have a2 : (t.ring.circular_buffer t.ring.read_index).full = false := by simpa using h2
      rw [a1, a2]
    · have a1 : (t.ring.circular_buffer i).full = true := by
        apply h1.mpr; rw [h8]; exact Nat.mod_lt _ (by unfold BUFFER_COUNT; omega)
      have a2 : (t.ring.circular_buffer t.ring.read_index).full = true := by
        apply h2.mpr; rw [h8]; exact Nat.mod_lt _ (by unfold BUFFER_COUNT; omega)
      rw [a1, a2]


/-- The statement of C4 at the interleaving that consists of one piece write. -/
theorem ring_well_formed_witness :
    exec initTrace [Event.piece ones 1 0] = some trace_one ∧
    (trace_one.ring.read_index < BUFFER_COUNT ∧ trace_one.ring.write_index < BUFFER_COUNT ∧
    (∀ i, i < BUFFER_COUNT →
      0 ≤ (trace_one.ring.circular_buffer i).read_pos ∧
      (trace_one.ring.circular_buffer i).read_pos ≤ (trace_one.ring.circular_buffer i).size ∧
      (trace_one.ring.circular_buffer i).size ≤ BUFFER_SIZE ∧
      ((trace_one.ring.circular_buffer i).full = true ↔
        (trace_one.ring.circular_buffer i).read_pos < (trace_one.ring.circular_buffer i).size)) ∧
    (∃ cnt, cnt ≤ BUFFER_COUNT ∧ fullCount trace_one.ring = cnt ∧
      trace_one.ring.write_index = (trace_one.ring.read_index + cnt) % BUFFER_COUNT ∧
      ∀ k, k < BUFFER_COUNT →
        ((trace_one.ring.circular_buffer ((trace_one.ring.read_index + k) % BUFFER_COUNT)).full = true
          ↔ k < cnt)) ∧
    (trace_one.ring.read_index = trace_one.ring.write_index →
      (∀ i, i < BUFFER_COUNT → (trace_one.ring.circular_buffer i).full = false) ∨
      (∀ i, i < BUFFER_COUNT → (trace_one.ring.circular_buffer i).full = true)) ∧
    (trace_one.ring.read_index = trace_one.ring.write_index →
      ∀ i, i < BUFFER_COUNT →
        (trace_one.ring.circular_buffer i).full
          = (trace_one.ring.circular_buffer trace_one.ring.read_index).full) ∧
    fullCount trace_one.ring ≤ BUFFER_COUNT) :=
  ⟨rfl, ring_well_formed [Event.piece ones 1 0] trace_one rfl⟩

/-- C5 (amended): (a) in every ring state one iteration of the copy loop either keeps
    `read_index` or moves it to `(read_index + 1) % BUFFER_COUNT`, and then the slot it
    leaves has `read_pos ≥ size` and is marked empty; (b) in every state reached from
    the initial ring, a producer piece write goes into a slot whose `full` flag is
    false and advances `write_index` by one modulo `BUFFER_COUNT`, and the slot at the
    new `write_index` is full exactly when all `BUFFER_COUNT` slots are full. -/
theorem no_double_advance (evs : List Event) (t : Trace) (h : exec initTrace evs = some t) :
    (∀ (r : Ring) (frames copied : Int),
      (render_body r frames copied).1.read_index = r.read_index ∨
      ((render_body r frames copied).1.read_index = (r.read_index + 1) % BUFFER_COUNT ∧
        ((render_body r frames copied).1.circular_buffer r.read_index).size
          ≤ ((render_body r frames copied).1.circular_buffer r.read_index).read_pos ∧
        ((render_body r frames copied).1.circular_buffer r.read_index).full = false)) ∧
    (∀ (converted_data : Nat → Sample) (samples copied : Int) (t1 : Trace),
      step t (Event.piece converted_data samples copied) = some t1 →
      (t.ring.circular_buffer t.ring.write_index).full = false ∧
      t1.ring.write_index = (t.ring.write_index + 1) % BUFFER_COUNT ∧
      ((t1.ring.circular_buffer t1.ring.write_index).full = true ↔
        ∀ i, i < BUFFER_COUNT → (t1.ring.circular_buffer i).full = true)) := by
  constructor
  · intro r frames copied
    simp only [render_body]
    generalize (if frames - copied
        < (r.circular_buffer r.read_index).size - (r.circular_buffer r.read_index).read_pos
      then frames - copied
      else (r.circular_buffer r.read_index).size - (r.circular_buffer r.read_index).read_pos)
      = chunk
    by_cases hc : (r.circular_buffer r.read_index).read_pos + chunk
        ≥ (r.circular_buffer r.read_index).size
    · rw [if_pos hc]
      right
      refine ⟨rfl, ?_, ?_⟩
      · simp only [Function.update_same]
        exact hc
      · simp only [Function.update_same]
    · rw [if_neg hc]
      left
      rfl
  · intro converted_data samples copied t1 hstep
    obtain ⟨⟨cnt, hR⟩, _⟩ := exec_init_good evs t h
    simp only [step] at hstep
    split_ifs at hstep with hg
    obtain ⟨_, hlt, hnf⟩ := hg
    cases hstep
    obtain ⟨hR1, _⟩ := decoder_body_spec converted_data samples t.ring copied cnt hR hlt hnf
    refine ⟨hnf, rfl, ?_⟩
    obtain ⟨hr, hw, _, hc, hwi, hfull⟩ := hR1
    simp only at hr hw hc hwi hfull ⊢
    constructor
    · intro hf i hi
      have hk : (i + BUFFER_COUNT
          - (decoder_body converted_data samples t.ring copied).1.read_index) % BUFFER_COUNT
          < BUFFER_COUNT := Nat.mod_lt _ (by unfold BUFFER_COUNT; omega)
      have hidx : ((decoder_body converted_data samples t.ring copied).1.read_index
          + (i + BUFFER_COUNT - (decoder_body converted_data samples t.ring copied).1.read_index)
            % BUFFER_COUNT) % BUFFER_COUNT = i := by
        unfold BUFFER_COUNT at *; omega
      have hcnt : cnt + 1 = BUFFER_COUNT := by
        by_contra hne
        have hlt1 : cnt + 1 < BUFFER_COUNT := by omega
        have := (hfull (cnt + 1) hlt1).mp (by rw [← hwi]; exact hf)
        omega
      have := (hfull _ hk).mpr (by omega)
      rwa [hidx] at this
    · intro hall
      exact hall _ hw


/-- The statement of C5 (amended) at the state reached by one piece write. -/
theorem no_double_advance_witness :
    exec initTrace [Event.piece ones 1 0]
      = some trace_one ∧
    ((∀ (r : Ring) (frames copied : Int),
      (render_body r frames copied).1.read_index = r.read_index ∨
      ((render_body r frames copied).1.read_index = (r.read_index + 1) % BUFFER_COUNT ∧
        ((render_body r frames copied).1.circular_buffer r.read_index).size
          ≤ ((render_body r frames copied).1.circular_buffer r.read_index).read_pos ∧
        ((render_body r frames copied).1.circular_buffer r.read_index).full = false)) ∧
    (∀ (converted_data : Nat → Sample) (samples copied : Int) (t1 : Trace),
      step trace_one
          (Event.piece converted_data samples copied) = some t1 →
      (trace_one.ring.circular_buffer trace_one.ring.write_index).full = false ∧
      t1.ring.write_index = (trace_one.ring.write_index + 1) % BUFFER_COUNT ∧
      ((t1.ring.circular_buffer t1.ring.write_index).full = true ↔
        ∀ i, i < BUFFER_COUNT → (t1.ring.circular_buffer i).full = true))) :=
  ⟨rfl, no_double_advance [Event.piece ones 1 0]
    trace_one rfl⟩


/-- C5 (b) as first stated fails: after seven piece writes the eighth sets
    `write_index` to `(7 + 1) % BUFFER_COUNT = 0`, and the slot there is full. -/
theorem write_index_lands_on_full_slot :
    ∃ t7 t8 : Trace,
      exec initTrace (List.replicate 7 (Event.piece ones 1 0)) = some t7 ∧
      step t7 (Event.piece ones 1 0) = some t8 ∧
      t8.ring.write_index = (t7.ring.write_index + 1) % BUFFER_COUNT ∧
      (t8.ring.circular_buffer t8.ring.write_index).full = true :=
  ⟨_, _, rfl, rfl, rfl, rfl⟩

/-- C6: for every ring, every sampler state (either visual mode), every width and
    height, a `draw_waveform` pass that completes returns the ring exactly as it was
    (both indices and every slot with its data, size, read_pos and full flag); the pass
    never suspends on a condition variable and contains no unbounded loop; it fails to
    complete only where the C division `n / width` is undefined (full slot, `width = 0`);
    and when the slot at `read_index` is not full it returns at once through the
    no-data branch. -/
theorem draw_waveform_read_only (r : Ring) (v : Visual) (width height : Int) :
    (∀ res, draw_waveform r v width height = Outcome.returned res → res.1 = r) ∧
    draw_waveform r v width height ≠ Outcome.waitNotEmpty ∧
    draw_waveform r v width height ≠ Outcome.waitNotFull ∧
    draw_waveform r v width height ≠ Outcome.outOfFuel ∧
    (draw_waveform r v width height = Outcome.undefinedBehaviour ↔
      ((r.circular_buffer r.read_index).full = true ∧ width = 0)) ∧
    (¬ ((r.circular_buffer r.read_index).full = true ∧ width = 0) →
      ∃ v1, draw_waveform r v width height = Outcome.returned (r, v1)) ∧
    ((r.circular_buffer r.read_index).full = false →
      draw_waveform r v width height = Outcome.returned (r, draw_mode v)) := by
  unfold draw_waveform
  by_cases hf : (r.circular_buffer r.read_index).full = true
  · by_cases hw : width = 0
    · simp [hf, hw]
    · simp [hf, hw]
  · simp [hf]

/-- C7 (amended): when the slot at `read_index` is not full, one `draw_waveform` pass
    returns with the ring, `last_frame`, `last_frame_len` and `visual_mode` unchanged;
    outside bar mode (in waveform mode, `visual_mode = 1`) the smoothed bars are
    unchanged too, while in bar mode (`visual_mode = 2`) every bar `i < NUM_BARS` is
    still updated to
    `0.8 * smooth_bars[i] + 0.2 * avg`, `avg` being the group average over the retained
    frame. -/
theorem no_data_tick_retains_frame (r : Ring) (v : Visual) (width height : Int)
    (hempty : (r.circular_buffer r.read_index).full = false) :
    ∃ v1, draw_waveform r v width height = Outcome.returned (r, v1) ∧
      v1.last_frame = v.last_frame ∧ v1.last_frame_len = v.last_frame_len ∧
      v1.visual_mode = v.visual_mode ∧
      (v.visual_mode ≠ 2 → v1.smooth_bars = v.smooth_bars) ∧
      (v.visual_mode = 2 → ∀ i,
        v1.smooth_bars i
          = if i < NUM_BARS
            then 0.8 * v.smooth_bars i + 0.2 * bar_avg v.last_frame v.last_frame_len i
            else v.smooth_bars i) := by
  refine ⟨draw_mode v, ?_, (draw_mode_frame v).1, (draw_mode_frame v).2.1,
    (draw_mode_frame v).2.2, ?_, ?_⟩
  · unfold draw_waveform
    simp [hempty]
  · intro h1
    unfold draw_mode
    split_ifs <;> rfl
  · intro h2 i
    unfold draw_mode
    rw [if_neg (by omega), if_pos h2, draw_bars_apply]
    rfl


/-- The statement of C7 (amended) at the initial ring in bar mode. -/
theorem no_data_tick_retains_frame_witness :
    (initRing.circular_buffer initRing.read_index).full = false ∧
    ∃ v1, draw_waveform initRing visual_ones 48 400 = Outcome.returned (initRing, v1) ∧
      v1.last_frame = visual_ones.last_frame ∧ v1.last_frame_len = visual_ones.last_frame_len ∧
      v1.visual_mode = visual_ones.visual_mode ∧
      (visual_ones.visual_mode ≠ 2 → v1.smooth_bars = visual_ones.smooth_bars) ∧
      (visual_ones.visual_mode = 2 → ∀ i,
        v1.smooth_bars i
          = if i < NUM_BARS
            then 0.8 * visual_ones.smooth_bars i
              + 0.2 * bar_avg visual_ones.last_frame visual_ones.last_frame_len i
            else visual_ones.smooth_bars i) :=
  ⟨rfl, no_data_tick_retains_frame initRing visual_ones 48 400 rfl⟩


/-- C7 as first stated fails in bar mode: the producer writes one sample, a pass at
    width 48 samples it (bar 0 becomes `1/5`), the consumer drains the slot, and the
    next pass, made while the slot at `read_index` is not full, moves bar 0 to `9/25`. -/
theorem bars_move_without_data :
    exec initTrace [Event.piece ones 1 0, Event.render 2 1]
      = some trace_drained ∧
    draw_waveform ring_one initVisual 48 400 = Outcome.returned (ring_one, visual_one) ∧
    (ring_drained.circular_buffer ring_drained.read_index).full = false ∧
    ∃ v2, draw_waveform ring_drained visual_one 48 400 = Outcome.returned (ring_drained, v2) ∧
      visual_one.smooth_bars 0 = 1 / 5 ∧ v2.smooth_bars 0 = 9 / 25 ∧
      v2.smooth_bars 0 ≠ visual_one.smooth_bars 0 := by
  obtain ⟨h0, hlen, hmode, hb⟩ := visual_one_frame
  have hv2 : (draw_mode visual_one).smooth_bars 0 = 9 / 25 := by
    unfold draw_mode
    rw [if_neg (by rw [hmode]; decide), if_pos hmode, draw_bars_apply, if_pos (by decide), hb,
      hlen]
    have havg : bar_avg visual_one.last_frame 48 0 = 1 := by
      unfold bar_avg bar_sum
      rw [samples_per_bar_48]
      simp [List.range_succ, h0]
    rw [havg]
    unfold smooth
    norm_num
  refine ⟨rfl, rfl, rfl, draw_mode visual_one, rfl, hb, hv2, ?_⟩
  rw [hv2, hb]
  norm_num

/-- C8: after one piece write of one sample the slot at `read_index` is full and has
    size 1.  A pass at
    width 2 runs the decimation loop once (it writes `last_frame[0]` from `data[0]`),
    yet records `last_frame_len = 2`, which is not `min 2 1`. -/
theorem last_frame_len_is_width :
    exec initTrace [Event.piece ones 1 0] = some trace_one ∧
    (ring_one.circular_buffer ring_one.read_index).full = true ∧
    (ring_one.circular_buffer ring_one.read_index).size = 1 ∧
    (sample_slot (ring_one.circular_buffer ring_one.read_index) 2 initVisual.last_frame).2.2
      = [(0, 0)] ∧
    ∃ v, draw_waveform ring_one initVisual 2 400 = Outcome.returned (ring_one, v) ∧
      v.last_frame_len = 2 ∧
      v.last_frame_len ≠ min 2 (ring_one.circular_buffer ring_one.read_index).size := by
  refine ⟨rfl, rfl, rfl, ?_, _, rfl, ?_, ?_⟩
  · have hsz : (ring_one.circular_buffer ring_one.read_index).size = 1 := rfl
    rw [(sample_slot_spec (ring_one.circular_buffer ring_one.read_index) 2
      initVisual.last_frame (by rw [hsz]; decide) (by decide)).1, hsz]
    simp [List.range_succ]
  · exact (draw_mode_frame _).2.1
  · rw [(draw_mode_frame _).2.1]
    have hsz : (ring_one.circular_buffer ring_one.read_index).size = 1 := rfl
    rw [hsz]
    decide

/-- Decimation pass: for a slot of size `n ≥ 0` and a width `W ≥ 1`, the step is
    `max 1 (n / W)`; the decimation loop makes `min W n` iterations; iteration `i` reads
    `data[i * step]` with `0 ≤ i * step < n` and writes `last_frame[i]`; the entries of
    `last_frame` from `min W n` on keep their old values; and the pass records
    `last_frame_len = W`. -/
theorem decimation_pass (s : MyAudioBuffer) (width : Int) (last_frame : Nat → Sample)
    (hn : 0 ≤ s.size) (hw : 1 ≤ width) :
    decimation_step s.size width = max 1 (s.size / width) ∧
    ((sample_slot s width last_frame).2.2.length : Int) = min width s.size ∧
    (∀ p, p ∈ (sample_slot s width last_frame).2.2 →
      0 ≤ p.2 ∧ p.2 < s.size ∧ p.2 = p.1 * decimation_step s.size width) ∧
    (∀ x : Nat, (x : Int) < min width s.size →
      (sample_slot s width last_frame).1 x
        = s.data ((x : Int) * decimation_step s.size width).toNat) ∧
    (∀ x : Nat, min width s.size ≤ (x : Int) →
      (sample_slot s width last_frame).1 x = last_frame x) ∧
    (sample_slot s width last_frame).2.1 = width := by
  obtain ⟨htrace, hframe, hlen⟩ := sample_slot_spec s width last_frame hn hw
  obtain ⟨hin, _⟩ := decimation_facts s.size width hn hw
  have hm0 : 0 ≤ min width s.size := le_min (by omega) hn
  refine ⟨?_, ?_, ?_, ?_, ?_, hlen⟩
  · unfold decimation_step
    rw [Int.tdiv_eq_ediv hn (by omega)]
    split_ifs with h
    · rw [max_eq_left (by omega)]
    · rw [max_eq_right (by omega)]
  · rw [htrace, List.length_map, List.length_range]
    omega
  · intro p hp
    rw [htrace, List.mem_map] at hp
    obtain ⟨k, hk, rfl⟩ := hp
    have hk1 : (k : Int) < min width s.size := by
      have := List.mem_range.mp hk
      omega
    have := (hin (k : Int) (by omega) hk1).2
    have hs := decimation_step_pos s.size width
    refine ⟨by positivity, this, rfl⟩
  · intro x hx
    rw [hframe]
    simp only
    rw [if_pos hx]
  · intro x hx
    rw [hframe]
    simp only
    rw [if_neg (by omega)]

/-- The decimation pass statement at the slot of `ring_one` and width 2. -/
theorem decimation_pass_witness :
    (0 : Int) ≤ (ring_one.circular_buffer ring_one.read_index).size ∧ (1 : Int) ≤ 2 ∧
    (decimation_step (ring_one.circular_buffer ring_one.read_index).size 2
      = max 1 ((ring_one.circular_buffer ring_one.read_index).size / 2) ∧
    ((sample_slot (ring_one.circular_buffer ring_one.read_index) 2
        initVisual.last_frame).2.2.length : Int)
      = min 2 (ring_one.circular_buffer ring_one.read_index).size ∧
    (∀ p, p ∈ (sample_slot (ring_one.circular_buffer ring_one.read_index) 2
        initVisual.last_frame).2.2 →
      0 ≤ p.2 ∧ p.2 < (ring_one.circular_buffer ring_one.read_index).size ∧
        p.2 = p.1 * decimation_step (ring_one.circular_buffer ring_one.read_index).size 2) ∧
    (∀ x : Nat, (x : Int) < min 2 (ring_one.circular_buffer ring_one.read_index).size →
      (sample_slot (ring_one.circular_buffer ring_one.read_index) 2 initVisual.last_frame).1 x
        = (ring_one.circular_buffer ring_one.read_index).data
            ((x : Int) * decimation_step (ring_one.circular_buffer ring_one.read_index).size 2).toNat) ∧
    (∀ x : Nat, min 2 (ring_one.circular_buffer ring_one.read_index).size ≤ (x : Int) →
      (sample_slot (ring_one.circular_buffer ring_one.read_index) 2 initVisual.last_frame).1 x
        = initVisual.last_frame x) ∧
    (sample_slot (ring_one.circular_buffer ring_one.read_index) 2 initVisual.last_frame).2.1
      = 2) :=
  ⟨by decide, by decide,
    decimation_pass (ring_one.circular_buffer ring_one.read_index) 2 initVisual.last_frame
      (by decide) (by decide)⟩

/-- C9: take `n` consecutive passes of `draw_waveform` in bar mode, pass `k` turning
    the sampler state `vis k` into `out k`, the bar `i` being carried from `out k` to
    `vis (k + 1)`.  If the group average computed for bar `i` equals `v` at each of
    these passes and `smooth_bars[i]` starts at 0, then after the `n` passes
    `smooth_bars[i] = v * (1 - 0.8 ^ n)` in exact arithmetic; and `v * (1 - 0.8 ^ m)`
    tends to `v` as `m` grows. -/
theorem smoothing_convergence (i : Nat) (hi : i < NUM_BARS) (v : Sample) (n : Nat)
    (r : Nat → Ring) (vis out : Nat → Visual) (width height : Nat → Int)
    (htick : ∀ k, k < n →
      draw_waveform (r k) (vis k) (width k) (height k) = Outcome.returned (r k, out k))
    (hmode : ∀ k, k < n → (vis k).visual_mode = 2)
    (havg : ∀ k, k < n → bar_avg (out k).last_frame (out k).last_frame_len i = v)
    (hnext : ∀ k, k < n → (vis (k + 1)).smooth_bars i = (out k).smooth_bars i)
    (hinit : (vis 0).smooth_bars i = 0) :
    (vis n).smooth_bars i = v * (1 - 0.8 ^ n) ∧
    Filter.Tendsto (fun m : ℕ => v * (1 - (0.8 : Sample) ^ m)) Filter.atTop (nhds v) := by
  constructor
  · have hall : ∀ k, k ≤ n → (vis k).smooth_bars i = v * (1 - 0.8 ^ k) := by
      intro k
      induction k with
      | zero => intro _; rw [hinit]; norm_num
      | succ j ih =>
        intro hj
        have hj1 : j < n := by omega
        rw [hnext j hj1, draw_waveform_bars _ _ _ _ _ _ i (htick j hj1) (hmode j hj1) hi,
          havg j hj1]
        exact smooth_closed_form v j _ (ih (by omega))
    exact hall n (le_refl _)
  · have hpow : Filter.Tendsto (fun m : ℕ => (0.8 : Sample) ^ m) Filter.atTop (nhds 0) :=
      tendsto_pow_atTop_nhds_zero_of_lt_one (by norm_num) (by norm_num)
    have h1 : Filter.Tendsto (fun m : ℕ => v * (1 - (0.8 : Sample) ^ m)) Filter.atTop
        (nhds (v * (1 - 0))) := (hpow.const_sub 1).const_mul v
    simpa using h1


/-- The statement of C9 at bar 0 over two passes on the frame of `visual_ones`. -/
theorem smoothing_convergence_witness :
    (0 < NUM_BARS) ∧
    (∀ k, k < 2 → draw_waveform initRing (visual_seq k) 48 400
      = Outcome.returned (initRing, visual_seq (k + 1))) ∧
    (∀ k, k < 2 → (visual_seq k).visual_mode = 2) ∧
    (∀ k, k < 2 →
      bar_avg (visual_seq (k + 1)).last_frame (visual_seq (k + 1)).last_frame_len 0 = 1) ∧
    (visual_seq 0).smooth_bars 0 = 0 ∧
    ((visual_seq 2).smooth_bars 0 = 1 * (1 - 0.8 ^ 2) ∧
      Filter.Tendsto (fun m : ℕ => (1 : Sample) * (1 - (0.8 : Sample) ^ m)) Filter.atTop
        (nhds 1)) := by
  have htick : ∀ k, k < 2 → draw_waveform initRing (visual_seq k) 48 400
      = Outcome.returned (initRing, visual_seq (k + 1)) := fun _ _ => rfl
  have hmode : ∀ k, k < 2 → (visual_seq k).visual_mode = 2 := by
    intro k hk
    interval_cases k <;> rfl
  have havg : ∀ k, k < 2 →
      bar_avg (visual_seq (k + 1)).last_frame (visual_seq (k + 1)).last_frame_len 0 = 1 := by
    intro k hk
    interval_cases k <;> exact bar_avg_ones_zero
  exact ⟨by decide, htick, hmode, havg, rfl,
    smoothing_convergence 0 (by decide) 1 2 (fun _ => initRing) visual_seq
      (fun k => visual_seq (k + 1)) (fun _ => 48) (fun _ => 400) htick hmode havg
      (fun _ _ => rfl) rfl⟩

/-- C10: for a slot of size `n` with `1 ≤ n ≤ BUFFER_SIZE` and a width `W ≥ 1`, the
    decimation loop of `draw_waveform` writes exactly the positions
    `0 .. min W n - 1` of `last_frame`; all these writes are inside the array of
    `MAX_SAMPLES` elements exactly when `min W n ≤ MAX_SAMPLES`, in particular when
    `W ≤ MAX_SAMPLES`; and every index it reads in the slot lies in `[0, n)`. -/
theorem decimation_writes_in_bounds (s : MyAudioBuffer) (width : Int) (last_frame : Nat → Sample)
    (hn1 : 1 ≤ s.size) (_hn2 : s.size ≤ BUFFER_SIZE) (hw : 1 ≤ width) :
    (sample_slot s width last_frame).2.2.map Prod.fst
      = (List.range (min width s.size).toNat).map (fun (k : Nat) => (k : Int)) ∧
    ((∀ p, p ∈ (sample_slot s width last_frame).2.2 → 0 ≤ p.1 ∧ p.1 < MAX_SAMPLES) ↔
      min width s.size ≤ MAX_SAMPLES) ∧
    (width ≤ MAX_SAMPLES →
      ∀ p, p ∈ (sample_slot s width last_frame).2.2 → 0 ≤ p.1 ∧ p.1 < MAX_SAMPLES) ∧
    (∀ p, p ∈ (sample_slot s width last_frame).2.2 → 0 ≤ p.2 ∧ p.2 < s.size) := by
  obtain ⟨htrace, _, _⟩ := sample_slot_spec s width last_frame (by omega) hw
  obtain ⟨hin, _⟩ := decimation_facts s.size width (by omega) hw
  have hmpos : 1 ≤ min width s.size := le_min hw hn1
  have hmem : ∀ p, p ∈ (sample_slot s width last_frame).2.2 ↔
      ∃ k : Nat, (k : Int) < min width s.size ∧
        p = ((k : Int), (k : Int) * decimation_step s.size width) := by
    intro p
    rw [htrace, List.mem_map]
    constructor
    · rintro ⟨k, hk, rfl⟩
      exact ⟨k, by have := List.mem_range.mp hk; omega, rfl⟩
    · rintro ⟨k, hk, rfl⟩
      exact ⟨k, List.mem_range.mpr (by omega), rfl⟩
  have hiff : (∀ p, p ∈ (sample_slot s width last_frame).2.2 → 0 ≤ p.1 ∧ p.1 < MAX_SAMPLES) ↔
      min width s.size ≤ MAX_SAMPLES := by
    constructor
    · intro hall
      have hlast := hall (((min width s.size - 1).toNat : Int),
        ((min width s.size - 1).toNat : Int) * decimation_step s.size width)
        ((hmem _).mpr ⟨(min width s.size - 1).toNat, by omega, rfl⟩)
      simp only at hlast
      omega
    · intro hle p hp
      obtain ⟨k, hk, rfl⟩ := (hmem p).mp hp
      simp only
      omega
  refine ⟨?_, hiff, ?_, ?_⟩
  · rw [htrace, List.map_map]
    rfl
  · intro hle
    apply hiff.mpr
    have : min width s.size ≤ width := min_le_left _ _
    omega
  · intro p hp
    obtain ⟨k, hk, rfl⟩ := (hmem p).mp hp
    simp only
    have := (hin (k : Int) (by omega) hk).2
    have hs := decimation_step_pos s.size width
    constructor
    · positivity
    · exact this


/-- The statement of C10 at the slot of `ring_one` and width 2. -/
theorem decimation_writes_in_bounds_witness :
    (1 : Int) ≤ (ring_one.circular_buffer ring_one.read_index).size ∧
    (ring_one.circular_buffer ring_one.read_index).size ≤ BUFFER_SIZE ∧ (1 : Int) ≤ 2 ∧
    ((sample_slot (ring_one.circular_buffer ring_one.read_index) 2 initVisual.last_frame).2.2.map
        Prod.fst
      = (List.range (min 2 (ring_one.circular_buffer ring_one.read_index).size).toNat).map
          (fun (k : Nat) => (k : Int)) ∧
    ((∀ p, p ∈ (sample_slot (ring_one.circular_buffer ring_one.read_index) 2
          initVisual.last_frame).2.2 → 0 ≤ p.1 ∧ p.1 < MAX_SAMPLES) ↔
      min 2 (ring_one.circular_buffer ring_one.read_index).size ≤ MAX_SAMPLES) ∧
    ((2 : Int) ≤ MAX_SAMPLES →
      ∀ p, p ∈ (sample_slot (ring_one.circular_buffer ring_one.read_index) 2
          initVisual.last_frame).2.2 → 0 ≤ p.1 ∧ p.1 < MAX_SAMPLES) ∧
    (∀ p, p ∈ (sample_slot (ring_one.circular_buffer ring_one.read_index) 2
          initVisual.last_frame).2.2 →
        0 ≤ p.2 ∧ p.2 < (ring_one.circular_buffer ring_one.read_index).size)) :=
  ⟨by decide, by decide, by decide,
    decimation_writes_in_bounds (ring_one.circular_buffer ring_one.read_index) 2 initVisual.last_frame
      (by decide) (by decide) (by decide)⟩

end A9
